import Mathlib

/-!
Verification of the alpha-beta O(N^3) Hungarian algorithm of this repository
(hungarian.cpp and the two variant formulations in the unnamed sources).

The C++ globals become fields of a state record over index type Fin N.
The integer sentinels of the source are rendered as Option:
mate_V/mate_U/nhbor/parent hold -1 ("unmatched" / "unset") as none, and
slack holds the initial numeric_limits max ("infinity") as none.  All
long long arithmetic is carried out on unbounded Int; the source relies
on the same arithmetic being exact.  The unbounded while loop of
search_augmenting_alternating_path and the recursion of augment are
modelled with an explicit fuel argument; the termination theorems show a
fuel of N + 1 (respectively N) suffices, matching the at-most-N-iteration
claims.
-/

namespace Hungarian

/-- Cost matrices: row index first, as in c[v][u] of the source. -/
abbrev Cost (N : ℕ) := Fin N → Fin N → Int

/-- The global state of hungarian.cpp: cost matrix c (already scaled by 2 at
read time), the matching vectors, the per-phase search scratch, and the dual
potentials. -/
@[ext] structure HState (N : ℕ) where
  c : Cost N
  mate_V : Fin N → Option (Fin N)
  mate_U : Fin N → Option (Fin N)
  nhbor : Fin N → Option (Fin N)
  parent : Fin N → Option (Fin N)
  alpha : Fin N → Int
  beta : Fin N → Int
  slack : Fin N → Option Int
  label_V : Fin N → Bool
  label_U : Fin N → Bool

variable {N : ℕ}

/-- Reduced cost c[v][u] - alpha[v] - beta[u], the bound of update_slack. -/
def sBound (s : HState N) (v u : Fin N) : Int := s.c v u - s.alpha v - s.beta u

/-- Comparison bound < slack[u] of update_slack; the infinite sentinel
(slack entry none) compares greater than everything. -/
def ltInf (b : Int) : Option Int → Bool
  | none => true
  | some x => decide (b < x)

/-- Guard of the body of update_slack for column u: u is unlabelled,
0 <= bound, and bound < slack[u]. -/
def relaxes (s : HState N) (v u : Fin N) : Bool :=
  !s.label_U u && (decide (0 ≤ sBound s v u) && ltInf (sBound s v u) (s.slack u))

/-- update_slack(v) of hungarian.cpp: for every unlabelled column u with
0 <= bound < slack[u], record slack[u] = bound and nhbor[u] = v.  The C++
loop touches each column independently, so it is a pointwise update. -/
def update_slack (v : Fin N) (s : HState N) : HState N :=
  { s with
    slack := fun u => if relaxes s v u then some (sBound s v u) else s.slack u,
    nhbor := fun u => if relaxes s v u then some v else s.nhbor u }

/-- Minimum of two slack values where none is the infinite sentinel. -/
def optMin : Option Int → Option Int → Option Int
  | none, b => b
  | some x, none => some x
  | some x, some y => some (min x y)

/-- One fold step of the theta computation: theta = min(theta, slack[u])
for unlabelled u, skip for labelled u. -/
def stepMin (s : HState N) (acc : Option Int) (u : Fin N) : Option Int :=
  if s.label_U u then acc else optMin acc (s.slack u)

/-- The fold theta = min(theta, slack[u]) over unlabelled u of
update_alpha_beta, starting from the infinite sentinel. -/
def minSlack (s : HState N) : Option Int :=
  (List.finRange N).foldl (stepMin s) none

/-- The dual shift of update_alpha_beta: alpha[i] += theta for labelled rows
else -= theta, and beta[i] -= theta for labelled columns else += theta. -/
def dualShift (t : Int) (s : HState N) : HState N :=
  { s with
    alpha := fun i => if s.label_V i then s.alpha i + t else s.alpha i - t,
    beta := fun i => if s.label_U i then s.beta i - t else s.beta i + t }

/-- update_alpha_beta of hungarian.cpp: compute theta as the minimum slack
over unlabelled columns; if theta > 0, halve it and apply the dual shift;
return the (possibly halved) theta together with the new state.  When every
unlabelled slack is still the infinite sentinel (a state the termination
proof shows unreachable) the C++ code would shift by half the sentinel and
then loop forever; we return theta = 0, which also loops forever. -/
def update_alpha_beta (s : HState N) : Int × HState N :=
  match minSlack s with
  | none => (0, s)
  | some θ => if 0 < θ then (θ / 2, dualShift (θ / 2) s) else (θ, s)

/-- Variant of update_alpha_beta in the first unnamed source (part_001,
function search): there theta /= 2 is executed before the positivity test,
and the shift is applied when the halved theta is positive. -/
def updAB1 (s : HState N) : Int × HState N :=
  match minSlack s with
  | none => (0, s)
  | some θ => (θ / 2, if 0 < θ / 2 then dualShift (θ / 2) s else s)

/-- slack[u] -= 2*theta of the scan; the infinite sentinel stays infinite
(in the source it stays astronomically large, and the run never revisits
such a column before the phase resets slack). -/
def decSlack : Option Int → Int → Option Int
  | none, _ => none
  | some x, d => some (x - d)

/-- The scan loop of search_augmenting_alternating_path: walk the columns in
order; for each unlabelled u, decrement slack[u] by 2*theta and test
admissibility (slack == 0).  An admissible unmatched column stops the scan
at once (the remaining columns keep their undecremented slack, as in the
C++ early return); an admissible matched column is appended to the
admissibles list. -/
def scanCols (t : Int) : List (Fin N) → HState N → List (Fin N) →
    HState N × List (Fin N) × Option (Fin N)
  | [], s, adm => (s, adm, none)
  | u :: l, s, adm =>
    if s.label_U u then scanCols t l s adm
    else
      let s1 : HState N :=
        { s with slack := Function.update s.slack u (decSlack (s.slack u) (2 * t)) }
      if decSlack (s.slack u) (2 * t) = some 0 then
        if s.mate_U u = none then (s1, adm, some u)
        else scanCols t l s1 (adm ++ [u])
      else scanCols t l s1 adm

/-- The body of the promotion loop for one admissible matched column u with
mate_U[u] = r: label u and r, point parent[r] at nhbor[u], and relax slacks
from r. -/
def promoteStep (u r : Fin N) (s : HState N) : HState N :=
  update_slack r
    { s with
      label_U := Function.update s.label_U u true,
      label_V := Function.update s.label_V r true,
      parent := Function.update s.parent r (s.nhbor u) }

/-- The promotion loop over the admissibles list: label the column and its
matched row, set the row parent to nhbor of the column, and relax slacks
from the newly labelled row.  The source indexes mate_U[u] directly; an
unmatched entry (never pushed by the scan) is skipped here. -/
def promote : List (Fin N) → HState N → HState N
  | [], s => s
  | u :: l, s =>
    match s.mate_U u with
    | none => promote l s
    | some r => promote l (promoteStep u r s)

/-- One iteration of the while loop of search_augmenting_alternating_path:
dual update, scan with admissibility tests, and either the found exposed
column (inr) or the promoted state for the next iteration (inl). -/
def searchStep (s : HState N) : (HState N) ⊕ (Fin N × HState N) :=
  let ts := update_alpha_beta s
  let r := scanCols ts.1 (List.finRange N) ts.2 []
  match r.2.2 with
  | some u => Sum.inr (u, r.1)
  | none => Sum.inl (promote r.2.1 r.1)

/-- The while(true) loop of search_augmenting_alternating_path, with fuel. -/
def searchLoop : ℕ → HState N → Option (Fin N × HState N)
  | 0, _ => none
  | fuel + 1, s =>
    match searchStep s with
    | Sum.inr r => some r
    | Sum.inl s1 => searchLoop fuel s1

/-- Iterating searchStep j times without finding an exposed column; used to
name the states the while loop passes through. -/
def stepN : ℕ → HState N → Option (HState N)
  | 0, s => some s
  | j + 1, s =>
    match searchStep s with
    | Sum.inr _ => none
    | Sum.inl s1 => stepN j s1

/-- The two matching assignments of one augment call: mate_V[v] = e and
mate_U[e] = v. -/
def flip (v e : Fin N) (s : HState N) : HState N :=
  { s with
    mate_V := Function.update s.mate_V v (some e),
    mate_U := Function.update s.mate_U e (some v) }

/-- The recursion of augment(v, exposed_u): remember aux = mate_V[v], match
v with the exposed column, and continue at parent[v] with aux as the new
exposed column.  Fuel bounds the recursion depth; aux = -1 with a parent
present would make the source index mate_U[-1], modelled as none. -/
def augmentAux : ℕ → Fin N → Fin N → HState N → Option (HState N)
  | 0, _, _, _ => none
  | fuel + 1, v, e, s =>
    match s.parent v with
    | none => some (flip v e s)
    | some p =>
      match s.mate_V v with
      | none => none
      | some a => augmentAux fuel p a (flip v e s)

/-- initialize_search of hungarian.cpp: reset nhbor, parent, slack and both
label vectors. -/
def initialize_search (s : HState N) : HState N :=
  { s with
    nhbor := fun _ => none,
    parent := fun _ => none,
    slack := fun _ => none,
    label_V := fun _ => false,
    label_U := fun _ => false }

/-- The seeding loop of hungarian_algorithm: label every currently unmatched
row and relax slacks from it, in row order. -/
def seedRows : List (Fin N) → HState N → HState N
  | [], s => s
  | v :: l, s =>
    if s.mate_V v = none then
      seedRows l (update_slack v { s with label_V := Function.update s.label_V v true })
    else seedRows l s

/-- A phase start: reset the search scratch and seed from unmatched rows. -/
def seedPhase (s : HState N) : HState N :=
  seedRows (List.finRange N) (initialize_search s)

/-- One phase of hungarian_algorithm: seed, search for an exposed column u,
then augment(nhbor[u], u).  nhbor[u] = -1 would make the source index with
-1 (modelled none); the fuel N for augment is justified by the rank
invariant on parent pointers. -/
def phaseBody (s : HState N) : Option (HState N) :=
  match searchLoop (N + 1) (seedPhase s) with
  | none => none
  | some (u, s2) =>
    match s2.nhbor u with
    | none => none
    | some r => augmentAux N r u s2

/-- The phase loop for i = 0 .. N-1 of hungarian_algorithm. -/
def runPhases : ℕ → HState N → Option (HState N)
  | 0, s => some s
  | k + 1, s =>
    match phaseBody s with
    | none => none
    | some s2 => runPhases k s2

/-- The scaled cost matrix: read_input multiplies every entry by 2. -/
def scaleC (c0 : Cost N) : Cost N := fun v u => 2 * c0 v u

/-- min_col[u] of read_input, over the scaled matrix (well defined because a
column index u exists, so N is positive). -/
def minCol (c : Cost N) (u : Fin N) : Int :=
  Finset.univ.inf' ⟨u, Finset.mem_univ u⟩ (fun v => c v u)

/-- The state after read_input and initialize_alpha_beta: both matchings
empty, alpha all zero, beta the column minima of the scaled costs, and the
search scratch in its pre-phase default. -/
def initState (c0 : Cost N) : HState N :=
  { c := scaleC c0,
    mate_V := fun _ => none,
    mate_U := fun _ => none,
    nhbor := fun _ => none,
    parent := fun _ => none,
    alpha := fun _ => 0,
    beta := fun u => minCol (scaleC c0) u,
    slack := fun _ => none,
    label_V := fun _ => false,
    label_U := fun _ => false }

/-- States reached after running k complete phases of hungarian.cpp on the
(unscaled) input matrix c0. -/
def phasesRun (c0 : Cost N) (k : ℕ) : Option (HState N) :=
  runPhases k (initState c0)

/-- The whole of hungarian_algorithm: N phases from the initial state. -/
def hungarianRun (c0 : Cost N) : Option (HState N) :=
  phasesRun c0 N

/-- The cost-mode output of main: (sum of alpha[i] + beta[i]) / 2. -/
def costOut (s : HState N) : Int := (∑ i, (s.alpha i + s.beta i)) / 2

/-- The program output in cost mode, as an Option because the loops are
modelled with fuel. -/
def costOutput (c0 : Cost N) : Option Int := (hungarianRun c0).map costOut

/-! The first unnamed variant (part_001).  Its function search runs the same
iteration inside a for loop bounded by N, halves theta before the
positivity test, performs the augmentation inside the scan, and a
fall-through of the for loop returns with no augmentation performed.  Its
main computes the cost from the matched edges instead of the duals. -/

/-- search of part_001 with the explicit for-loop bound as fuel; fuel 0 is
the fall-through return, which leaves the state unchanged. -/
def search1 : ℕ → HState N → Option (HState N)
  | 0, s => some s
  | fuel + 1, s =>
    let ts := updAB1 s
    let r := scanCols ts.1 (List.finRange N) ts.2 []
    match r.2.2 with
    | some u =>
      match r.1.nhbor u with
      | none => none
      | some w => augmentAux N w u r.1
    | none => search1 fuel (promote r.2.1 r.1)

/-- One phase of the main cycle of part_001. -/
def phaseBody1 (s : HState N) : Option (HState N) :=
  search1 N (seedPhase s)

/-- The main cycle of part_001: N phases. -/
def runPhases1 : ℕ → HState N → Option (HState N)
  | 0, s => some s
  | k + 1, s =>
    match phaseBody1 s with
    | none => none
    | some s2 => runPhases1 k s2

/-- The whole solver of part_001. -/
def hungarianRun1 (c0 : Cost N) : Option (HState N) :=
  runPhases1 N (initState c0)

/-- The cost output of part_001: sum of c[v][mate_V[v]] over all rows,
divided by 2.  A row left unmatched would make the source index c[v][-1];
that is modelled as none. -/
def matchedCost (s : HState N) : Option Int :=
  if h : ∀ v, (s.mate_V v).isSome then
    some ((∑ v, s.c v ((s.mate_V v).get (h v))) / 2)
  else none

/-- The program output of part_001. -/
def costOutput1 (c0 : Cost N) : Option Int := (hungarianRun1 c0).bind matchedCost

/-! The second unnamed variant (part_002).  It is the same algorithm as
hungarian.cpp except that search performs the augmentation before
returning, instead of handing the exposed column back to the driver. -/

/-- search of part_002: the while(true) loop with the augmentation applied
at the point of return. -/
def search2 : ℕ → HState N → Option (HState N)
  | 0, _ => none
  | fuel + 1, s =>
    match searchStep s with
    | Sum.inr r =>
      match r.2.nhbor r.1 with
      | none => none
      | some w => augmentAux N w r.1 r.2
    | Sum.inl s1 => search2 fuel s1

/-- One phase of hungarian_algorithm of part_002. -/
def phaseBody2 (s : HState N) : Option (HState N) :=
  search2 (N + 1) (seedPhase s)

/-- The phase loop of part_002. -/
def runPhases2 : ℕ → HState N → Option (HState N)
  | 0, s => some s
  | k + 1, s =>
    match phaseBody2 s with
    | none => none
    | some s2 => runPhases2 k s2

/-- The whole solver of part_002. -/
def hungarianRun2 (c0 : Cost N) : Option (HState N) :=
  runPhases2 N (initState c0)

/-- The program output of part_002 in cost mode: same dual formula as
hungarian.cpp. -/
def costOutput2 (c0 : Cost N) : Option Int := (hungarianRun2 c0).map costOut

/-! Specification-side notions: cost of an assignment and the optimum. -/

/-- Total (unscaled) cost of the assignment sigma. -/
def assignCost (c0 : Cost N) (σ : Equiv.Perm (Fin N)) : Int :=
  ∑ v, c0 v (σ v)

/-- The optimal assignment cost: minimum of assignCost over all bijections
of rows to columns. -/
def minAssignCost (c0 : Cost N) : Int :=
  Finset.univ.inf' ⟨1, Finset.mem_univ 1⟩ (assignCost c0)

/-- The admissibility test of the scan, as a Boolean predicate on the
starting state. -/
def admAt (t : Int) (s : HState N) (u : Fin N) : Bool :=
  !s.label_U u && decide (decSlack (s.slack u) (2 * t) = some 0)

/-- The set of matched rows. -/
def matchedV (s : HState N) : Finset (Fin N) :=
  Finset.univ.filter fun v => s.mate_V v ≠ none

/-- The number of matched rows; it equals the phase index. -/
def matchedCard (s : HState N) : ℕ := (matchedV s).card

/-- The set of matched columns. -/
def matchedU (s : HState N) : Finset (Fin N) :=
  Finset.univ.filter fun u => s.mate_U u ≠ none

/-- The set of labelled rows. -/
def labVset (s : HState N) : Finset (Fin N) :=
  Finset.univ.filter fun v => s.label_V v = true

/-- The number of labelled rows, used to give fresh ranks to rows as they
enter the Hungarian tree. -/
def labCardV (s : HState N) : ℕ := (labVset s).card

/-- The termination measure of the search loop: the number of unlabelled
matched columns.  Every non-returning iteration labels at least one of
them. -/
def colMeasure (s : HState N) : ℕ :=
  (Finset.univ.filter fun u => s.label_U u = false ∧ s.mate_U u ≠ none).card

/-- Invariant at phase boundaries: scaled costs are non-negative and even,
the matching is symmetric, the duals are feasible and even, matched edges
are tight, and k pairs are matched. -/
structure PInv (k : ℕ) (s : HState N) : Prop where
  cNN : ∀ v u, 0 ≤ s.c v u
  cEven : ∀ v u, Even (s.c v u)
  sym : ∀ v u, s.mate_V v = some u ↔ s.mate_U u = some v
  feas : ∀ v u, s.alpha v + s.beta u ≤ s.c v u
  tight : ∀ v u, s.mate_V v = some u → s.alpha v + s.beta u = s.c v u
  evenD : ∀ v u, Even (s.alpha v + s.beta u)
  size : matchedCard s = k

/-- Invariant at the head of each while-loop iteration during phase k. -/
structure SInv (k : ℕ) (s : HState N) : Prop where
  cNN : ∀ v u, 0 ≤ s.c v u
  cEven : ∀ v u, Even (s.c v u)
  sym : ∀ v u, s.mate_V v = some u ↔ s.mate_U u = some v
  feas : ∀ v u, s.alpha v + s.beta u ≤ s.c v u
  tight : ∀ v u, s.mate_V v = some u → s.alpha v + s.beta u = s.c v u
  evenD : ∀ v u, Even (s.alpha v + s.beta u)
  slackE : ∀ u, s.label_U u = false → ∀ x, s.slack u = some x →
      ∃ v, s.nhbor u = some v ∧ s.label_V v = true ∧ x = sBound s v u
  slackF : ∀ u, s.label_U u = false → ∀ v, s.label_V v = true →
      ∃ x, s.slack u = some x ∧ x ≤ sBound s v u
  labH : ∀ v u, s.mate_V v = some u → s.label_V v = s.label_U u
  parP : ∀ v p, s.parent v = some p → s.label_V v = true ∧ s.label_V p = true ∧
      ∃ w, s.mate_V v = some w ∧ s.label_U w = true ∧ s.alpha p + s.beta w = s.c p w
  rootR : ∀ v, s.label_V v = true → s.parent v = none → s.mate_V v = none
  rankOK : ∃ rk : Fin N → ℕ,
      (∀ v p, s.parent v = some p → rk p < rk v) ∧
      (∀ v, s.label_V v = true → rk v < labCardV s) ∧
      (∀ u w, s.label_U u = false → s.nhbor u = some w →
        s.label_V w = true ∧ rk w < labCardV s)
  rowsLv : ∀ v, s.mate_V v = none → s.label_V v = true
  colsLU : ∀ u, s.label_U u = true → s.mate_U u ≠ none
  size : matchedCard s = k
  klt : k < N

/-- What holds of the state handed to augment at the end of a phase: the
usual dual and matching invariants, the acyclicity data for the parent
pointers, and the tight edge from the exposed column to its recorded
neighbour. -/
structure Found (k : ℕ) (u : Fin N) (s : HState N) : Prop where
  cNN : ∀ v u2, 0 ≤ s.c v u2
  cEven : ∀ v u2, Even (s.c v u2)
  sym : ∀ v u2, s.mate_V v = some u2 ↔ s.mate_U u2 = some v
  feas : ∀ v u2, s.alpha v + s.beta u2 ≤ s.c v u2
  tight : ∀ v u2, s.mate_V v = some u2 → s.alpha v + s.beta u2 = s.c v u2
  evenD : ∀ v u2, Even (s.alpha v + s.beta u2)
  parP : ∀ v p, s.parent v = some p → s.label_V v = true ∧ s.label_V p = true ∧
      ∃ w, s.mate_V v = some w ∧ s.alpha p + s.beta w = s.c p w
  rootR : ∀ v, s.label_V v = true → s.parent v = none → s.mate_V v = none
  rankB : ∃ rk : Fin N → ℕ,
      (∀ v p, s.parent v = some p → rk p < rk v) ∧
      (∀ v, s.label_V v = true → rk v < N)
  size : matchedCard s = k
  uUnm : s.mate_U u = none
  nh : ∃ r, s.nhbor u = some r ∧ s.label_V r = true ∧
      s.alpha r + s.beta u = s.c r u

/-- The relaxation guard of promoteStep as seen from the original state. -/
def promRelax (u r : Fin N) (s : HState N) (u2 : Fin N) : Bool :=
  !(Function.update s.label_U u true u2) &&
    (decide (0 ≤ sBound s r u2) && ltInf (sBound s r u2) (s.slack u2))

/-- Invariant maintained while the seeding loop of a phase start runs: all
columns unlabelled, no parents, labelled rows unmatched, and the slack and
nhbor entries exactly reflect relaxations from labelled rows. -/
structure SeedInv (k : ℕ) (s : HState N) : Prop where
  cNN : ∀ v u, 0 ≤ s.c v u
  cEven : ∀ v u, Even (s.c v u)
  sym : ∀ v u, s.mate_V v = some u ↔ s.mate_U u = some v
  feas : ∀ v u, s.alpha v + s.beta u ≤ s.c v u
  tight : ∀ v u, s.mate_V v = some u → s.alpha v + s.beta u = s.c v u
  evenD : ∀ v u, Even (s.alpha v + s.beta u)
  size : matchedCard s = k
  labU : ∀ u, s.label_U u = false
  par : ∀ v, s.parent v = none
  labMate : ∀ v, s.label_V v = true → s.mate_V v = none
  slE : ∀ u x, s.slack u = some x →
      ∃ v, s.nhbor u = some v ∧ s.label_V v = true ∧ x = sBound s v u
  slF : ∀ u v, s.label_V v = true → ∃ x, s.slack u = some x ∧ x ≤ sBound s v u
  nh : ∀ u w, s.nhbor u = some w → s.label_V w = true

/-- The state at the head of iteration j of the while loop of phase k, on
input c0 (none when fewer phases or iterations happen). -/
def loopState (c0 : Cost N) (k j : ℕ) : Option (HState N) :=
  (phasesRun c0 k).bind fun s => stepN j (seedPhase s)

/-- A concrete 2 x 2 instance used to witness the claim theorems. -/
def wMat : Cost 2 := fun v u =>
  if v = 0 then (if u = 0 then 3 else 1) else (if u = 0 then 2 else 4)

/-! Field equations for the basic operations. -/

@[simp] lemma update_slack_c (v : Fin N) (s : HState N) :
    (update_slack v s).c = s.c := rfl

@[simp] lemma update_slack_mate_V (v : Fin N) (s : HState N) :
    (update_slack v s).mate_V = s.mate_V := rfl

@[simp] lemma update_slack_mate_U (v : Fin N) (s : HState N) :
    (update_slack v s).mate_U = s.mate_U := rfl

@[simp] lemma update_slack_parent (v : Fin N) (s : HState N) :
    (update_slack v s).parent = s.parent := rfl

@[simp] lemma update_slack_alpha (v : Fin N) (s : HState N) :
    (update_slack v s).alpha = s.alpha := rfl

@[simp] lemma update_slack_beta (v : Fin N) (s : HState N) :
    (update_slack v s).beta = s.beta := rfl

@[simp] lemma update_slack_label_V (v : Fin N) (s : HState N) :
    (update_slack v s).label_V = s.label_V := rfl

@[simp] lemma update_slack_label_U (v : Fin N) (s : HState N) :
    (update_slack v s).label_U = s.label_U := rfl

lemma update_slack_slack (v u : Fin N) (s : HState N) :
    (update_slack v s).slack u =
      if relaxes s v u then some (sBound s v u) else s.slack u := rfl

lemma update_slack_nhbor (v u : Fin N) (s : HState N) :
    (update_slack v s).nhbor u =
      if relaxes s v u then some v else s.nhbor u := rfl

@[simp] lemma dualShift_c (t : Int) (s : HState N) : (dualShift t s).c = s.c := rfl

@[simp] lemma dualShift_mate_V (t : Int) (s : HState N) :
    (dualShift t s).mate_V = s.mate_V := rfl

@[simp] lemma dualShift_mate_U (t : Int) (s : HState N) :
    (dualShift t s).mate_U = s.mate_U := rfl

@[simp] lemma dualShift_nhbor (t : Int) (s : HState N) :
    (dualShift t s).nhbor = s.nhbor := rfl

@[simp] lemma dualShift_parent (t : Int) (s : HState N) :
    (dualShift t s).parent = s.parent := rfl

@[simp] lemma dualShift_slack (t : Int) (s : HState N) :
    (dualShift t s).slack = s.slack := rfl

@[simp] lemma dualShift_label_V (t : Int) (s : HState N) :
    (dualShift t s).label_V = s.label_V := rfl

@[simp] lemma dualShift_label_U (t : Int) (s : HState N) :
    (dualShift t s).label_U = s.label_U := rfl

lemma dualShift_alpha (t : Int) (s : HState N) (i : Fin N) :
    (dualShift t s).alpha i = if s.label_V i then s.alpha i + t else s.alpha i - t := rfl

lemma dualShift_beta (t : Int) (s : HState N) (i : Fin N) :
    (dualShift t s).beta i = if s.label_U i then s.beta i - t else s.beta i + t := rfl

/-! Lemmas about optMin and the minSlack fold. -/

lemma optMin_none_right (a : Option Int) : optMin a none = a := by
  cases a <;> rfl

lemma optMin_eq_none (a b : Option Int) : optMin a b = none ↔ a = none ∧ b = none := by
  cases a <;> cases b <;> simp [optMin]

lemma optMin_le_left (x : Int) (b : Option Int) :
    ∃ θ, optMin (some x) b = some θ ∧ θ ≤ x := by
  cases b with
  | none => exact ⟨x, rfl, le_refl x⟩
  | some y => exact ⟨min x y, rfl, min_le_left x y⟩

lemma optMin_le_right (a : Option Int) (b : Option Int) (y : Int) (h : b = some y) :
    ∃ θ, optMin a b = some θ ∧ θ ≤ y := by
  subst h
  cases a with
  | none => exact ⟨y, rfl, le_refl y⟩
  | some x => exact ⟨min x y, rfl, min_le_right x y⟩

lemma optMin_attained (a b : Option Int) (θ : Int) (h : optMin a b = some θ) :
    a = some θ ∨ b = some θ := by
  cases a with
  | none => exact Or.inr h
  | some x =>
    cases b with
    | none => exact Or.inl h
    | some y =>
      simp only [optMin, Option.some.injEq] at h
      rcases min_cases x y with ⟨h1, _⟩ | ⟨h1, _⟩
      · exact Or.inl (by rw [← h, h1])
      · exact Or.inr (by rw [← h, h1])

lemma foldl_stepMin_le_acc (s : HState N) (l : List (Fin N)) (acc : Option Int)
    (a : Int) (h : acc = some a) :
    ∃ θ, l.foldl (stepMin s) acc = some θ ∧ θ ≤ a := by
  induction l generalizing acc a with
  | nil => exact ⟨a, by simp [h], le_refl a⟩
  | cons u l ih =>
    subst h
    simp only [List.foldl_cons]
    by_cases hl : s.label_U u
    · exact ih _ a (by simp [stepMin, hl])
    · obtain ⟨m, hm, hle⟩ := optMin_le_left a (s.slack u)
      obtain ⟨θ, hθ, hθle⟩ := ih (stepMin s (some a) u) m (by simp [stepMin, hl, hm])
      exact ⟨θ, hθ, le_trans hθle hle⟩

lemma foldl_stepMin_le (s : HState N) (l : List (Fin N)) (acc : Option Int)
    (u : Fin N) (x : Int) (hu : u ∈ l) (hlab : s.label_U u = false)
    (hx : s.slack u = some x) :
    ∃ θ, l.foldl (stepMin s) acc = some θ ∧ θ ≤ x := by
  induction l generalizing acc with
  | nil => simp at hu
  | cons w l ih =>
    simp only [List.foldl_cons]
    rcases List.mem_cons.mp hu with rfl | hmem
    · obtain ⟨m, hm, hle⟩ := optMin_le_right acc (s.slack u) x hx
      obtain ⟨θ, hθ, hθle⟩ := foldl_stepMin_le_acc s l (stepMin s acc u) m (by simp [stepMin, hlab, hm])
      exact ⟨θ, hθ, le_trans hθle hle⟩
    · exact ih (stepMin s acc w) hmem

lemma foldl_stepMin_attained (s : HState N) (l : List (Fin N)) (acc : Option Int)
    (θ : Int) (h : l.foldl (stepMin s) acc = some θ) :
    acc = some θ ∨ ∃ u ∈ l, s.label_U u = false ∧ s.slack u = some θ := by
  induction l generalizing acc with
  | nil => exact Or.inl h
  | cons w l ih =>
    simp only [List.foldl_cons] at h
    rcases ih _ h with hacc | ⟨u, hu, h1, h2⟩
    · by_cases hl : s.label_U w
      · simp [stepMin, hl] at hacc
        exact Or.inl hacc
      · simp only [stepMin, hl, if_false] at hacc
        rcases optMin_attained _ _ _ hacc with h3 | h3
        · exact Or.inl h3
        · exact Or.inr ⟨w, List.mem_cons_self w l, by simpa using hl, h3⟩
    · exact Or.inr ⟨u, List.mem_cons_of_mem w hu, h1, h2⟩

/-- If some unlabelled column has finite slack, the theta fold yields a
finite minimum bounded by it. -/
lemma minSlack_le (s : HState N) (u : Fin N) (x : Int)
    (hlab : s.label_U u = false) (hx : s.slack u = some x) :
    ∃ θ, minSlack s = some θ ∧ θ ≤ x :=
  foldl_stepMin_le s (List.finRange N) none u x (List.mem_finRange u) hlab hx

/-- The theta fold attains its value at some unlabelled column. -/
lemma minSlack_attained (s : HState N) (θ : Int) (h : minSlack s = some θ) :
    ∃ u, s.label_U u = false ∧ s.slack u = some θ := by
  rcases foldl_stepMin_attained s (List.finRange N) none θ h with h1 | ⟨u, _, h1, h2⟩
  · exact absurd h1 (by simp)
  · exact ⟨u, h1, h2⟩

/-! Characterization of the scan loop. -/

/-- The scan only changes slack entries: every other field is preserved on
all return paths. -/
lemma scanCols_preserve (t : Int) (l : List (Fin N)) (s : HState N)
    (adm : List (Fin N)) :
    (scanCols t l s adm).1.c = s.c ∧
    (scanCols t l s adm).1.mate_V = s.mate_V ∧
    (scanCols t l s adm).1.mate_U = s.mate_U ∧
    (scanCols t l s adm).1.nhbor = s.nhbor ∧
    (scanCols t l s adm).1.parent = s.parent ∧
    (scanCols t l s adm).1.alpha = s.alpha ∧
    (scanCols t l s adm).1.beta = s.beta ∧
    (scanCols t l s adm).1.label_V = s.label_V ∧
    (scanCols t l s adm).1.label_U = s.label_U := by
  induction l generalizing s adm with
  | nil => exact ⟨rfl, rfl, rfl, rfl, rfl, rfl, rfl, rfl, rfl⟩
  | cons u l ih =>
    by_cases hl : s.label_U u
    · simpa [scanCols, hl] using ih s adm
    · by_cases h0 : decSlack (s.slack u) (2 * t) = some 0
      · by_cases hm : s.mate_U u = none
        · simp [scanCols, hl, h0, hm]
        · simp only [scanCols, hl, if_false, if_pos h0, if_neg hm, Bool.false_eq_true]
          obtain ⟨h1, h2, h3, h4, h5, h6, h7, h8, h9⟩ :=
            ih { s with slack := Function.update s.slack u (decSlack (s.slack u) (2 * t)) }
              (adm ++ [u])
          exact ⟨h1, h2, h3, h4, h5, h6, h7, h8, h9⟩
      · simp only [scanCols, hl, if_false, if_neg h0, Bool.false_eq_true]
        obtain ⟨h1, h2, h3, h4, h5, h6, h7, h8, h9⟩ :=
          ih { s with slack := Function.update s.slack u (decSlack (s.slack u) (2 * t)) } adm
        exact ⟨h1, h2, h3, h4, h5, h6, h7, h8, h9⟩

/-- When the scan returns an exposed column u, then u was an unlabelled
column whose decremented slack reached zero and whose mate was empty, all
read off the state the scan started from. -/
lemma scanCols_found (t : Int) (l : List (Fin N)) (s : HState N)
    (adm : List (Fin N)) (hnd : l.Nodup) (s2 : HState N) (adm2 : List (Fin N))
    (u : Fin N) (h : scanCols t l s adm = (s2, adm2, some u)) :
    u ∈ l ∧ s.label_U u = false ∧ decSlack (s.slack u) (2 * t) = some 0 ∧
      s.mate_U u = none := by
  induction l generalizing s adm with
  | nil => simp [scanCols] at h
  | cons w l ih =>
    have hw : w ∉ l := (List.nodup_cons.mp hnd).1
    have hnd2 : l.Nodup := (List.nodup_cons.mp hnd).2
    by_cases hl : s.label_U w
    · rw [scanCols, if_pos hl] at h
      obtain ⟨h1, h2, h3, h4⟩ := ih s adm hnd2 h
      exact ⟨List.mem_cons_of_mem w h1, h2, h3, h4⟩
    · by_cases h0 : decSlack (s.slack w) (2 * t) = some 0
      · by_cases hm : s.mate_U w = none
        · rw [scanCols] at h
          simp only [hl, if_false, if_pos h0, if_pos hm, Bool.false_eq_true] at h
          have hu2 : some w = some u := congrArg (fun o => o.2.2) h
          have hu3 : u = w := by
            injection hu2 with h5
            exact h5.symm
          subst hu3
          exact ⟨List.mem_cons_self u l, by simpa using hl, h0, hm⟩
        · rw [scanCols] at h
          simp only [hl, if_false, if_pos h0, if_neg hm, Bool.false_eq_true] at h
          obtain ⟨h1, h2, h3, h4⟩ := ih _ (adm ++ [w]) hnd2 h
          have hne : u ≠ w := fun he => hw (he ▸ h1)
          refine ⟨List.mem_cons_of_mem w h1, h2, ?_, h4⟩
          simpa [Function.update_apply, hne] using h3
      · rw [scanCols] at h
        simp only [hl, if_false, if_neg h0, Bool.false_eq_true] at h
        obtain ⟨h1, h2, h3, h4⟩ := ih _ adm hnd2 h
        have hne : u ≠ w := fun he => hw (he ▸ h1)
        refine ⟨List.mem_cons_of_mem w h1, h2, ?_, h4⟩
        simpa [Function.update_apply, hne] using h3

/-- When the scan completes without finding an exposed column: every
unlabelled visited column had its slack decremented by 2*theta, unvisited
and labelled columns are untouched, the admissibles list is extended by
exactly the visited unlabelled columns whose decremented slack is zero,
and each such column is matched. -/
lemma scanCols_none (t : Int) (l : List (Fin N)) (s : HState N)
    (adm : List (Fin N)) (hnd : l.Nodup) (s2 : HState N) (adm2 : List (Fin N))
    (h : scanCols t l s adm = (s2, adm2, none)) :
    (∀ u ∈ l, s2.slack u =
        if s.label_U u then s.slack u else decSlack (s.slack u) (2 * t)) ∧
    (∀ u, u ∉ l → s2.slack u = s.slack u) ∧
    adm2 = adm ++ l.filter (admAt t s) ∧
    (∀ u ∈ l, s.label_U u = false → decSlack (s.slack u) (2 * t) = some 0 →
      s.mate_U u ≠ none) := by
  induction l generalizing s adm with
  | nil =>
    simp only [scanCols, Prod.mk.injEq] at h
    obtain ⟨rfl, rfl, -⟩ := h
    exact ⟨by simp, fun u _ => rfl, by simp, by simp⟩
  | cons w l ih =>
    have hw : w ∉ l := (List.nodup_cons.mp hnd).1
    have hnd2 : l.Nodup := (List.nodup_cons.mp hnd).2
    by_cases hl : s.label_U w
    · rw [scanCols, if_pos hl] at h
      obtain ⟨h1, h2, h3, h4⟩ := ih s adm hnd2 h
      refine ⟨?_, ?_, ?_, ?_⟩
      · intro u hu
        rcases List.mem_cons.mp hu with rfl | hu2
        · rw [if_pos hl]; exact h2 u hw
        · exact h1 u hu2
      · intro u hu
        exact h2 u (fun h5 => hu (List.mem_cons_of_mem w h5))
      · rw [h3]
        have : admAt t s w = false := by simp [admAt, hl]
        simp [List.filter_cons, this]
      · intro u hu h5 h6
        rcases List.mem_cons.mp hu with rfl | hu2
        · rw [hl] at h5; exact absurd h5 (by simp)
        · exact h4 u hu2 h5 h6
    · have hlf : s.label_U w = false := by simpa using hl
      have hupd : ∀ u2, u2 ≠ w →
          Function.update s.slack w (decSlack (s.slack w) (2 * t)) u2 = s.slack u2 := by
        intro u2 h2
        simp [Function.update_apply, h2]
      by_cases h0 : decSlack (s.slack w) (2 * t) = some 0
      · by_cases hm : s.mate_U w = none
        · rw [scanCols] at h
          simp only [hl, if_false, if_pos h0, if_pos hm, Bool.false_eq_true] at h
          exact absurd (congrArg (fun o => o.2.2) h) (by simp)
        · rw [scanCols] at h
          simp only [hl, if_false, if_pos h0, if_neg hm, Bool.false_eq_true] at h
          obtain ⟨h1, h2, h3, h4⟩ := ih
            { s with slack := Function.update s.slack w (decSlack (s.slack w) (2 * t)) }
            (adm ++ [w]) hnd2 h
          refine ⟨?_, ?_, ?_, ?_⟩
          · intro u hu
            rcases List.mem_cons.mp hu with rfl | hu2
            · rw [hlf, if_neg (by simp)]
              have := h2 u hw
              simpa using this
            · have hne : u ≠ w := fun he => hw (he ▸ hu2)
              have := h1 u hu2
              simpa [hupd u hne] using this
          · intro u hu
            have hne : u ≠ w := fun he => hu (he ▸ List.mem_cons_self w l)
            have := h2 u (fun h5 => hu (List.mem_cons_of_mem w h5))
            simpa [hupd u hne] using this
          · rw [h3]
            have hfw : admAt t s w = true := by simp [admAt, hlf, h0]
            have hfc : l.filter
                (admAt t { s with
                  slack := Function.update s.slack w (decSlack (s.slack w) (2 * t)) }) =
                l.filter (admAt t s) := by
              apply List.filter_congr
              intro u hu
              have hne : u ≠ w := fun he => hw (he ▸ hu)
              simp [admAt, hupd u hne]
            rw [hfc, List.filter_cons, hfw]
            simp
          · intro u hu h5 h6
            rcases List.mem_cons.mp hu with rfl | hu2
            · exact hm
            · have hne : u ≠ w := fun he => hw (he ▸ hu2)
              exact h4 u hu2 h5 (by simpa [hupd u hne] using h6)
      · rw [scanCols] at h
        simp only [hl, if_false, if_neg h0, Bool.false_eq_true] at h
        obtain ⟨h1, h2, h3, h4⟩ := ih
          { s with slack := Function.update s.slack w (decSlack (s.slack w) (2 * t)) }
          adm hnd2 h
        refine ⟨?_, ?_, ?_, ?_⟩
        · intro u hu
          rcases List.mem_cons.mp hu with rfl | hu2
          · rw [hlf, if_neg (by simp)]
            have := h2 u hw
            simpa using this
          · have hne : u ≠ w := fun he => hw (he ▸ hu2)
            have := h1 u hu2
            simpa [hupd u hne] using this
        · intro u hu
          have hne : u ≠ w := fun he => hu (he ▸ List.mem_cons_self w l)
          have := h2 u (fun h5 => hu (List.mem_cons_of_mem w h5))
          simpa [hupd u hne] using this
        · rw [h3]
          have hfw : admAt t s w = false := by simp [admAt, hlf, h0]
          have hfc : l.filter
              (admAt t { s with
                slack := Function.update s.slack w (decSlack (s.slack w) (2 * t)) }) =
              l.filter (admAt t s) := by
            apply List.filter_congr
            intro u hu
            have hne : u ≠ w := fun he => hw (he ▸ hu)
            simp [admAt, hupd u hne]
          rw [hfc, List.filter_cons, hfw]
          simp
        · intro u hu h5 h6
          rcases List.mem_cons.mp hu with rfl | hu2
          · exact absurd h6 h0
          · have hne : u ≠ w := fun he => hw (he ▸ hu2)
            exact h4 u hu2 h5 (by simpa [hupd u hne] using h6)

/-! Cardinalities used by the invariants and the termination measures. -/

lemma labCardV_le (s : HState N) : labCardV s ≤ N := by
  simpa [labCardV, labVset] using
    le_trans (Finset.card_filter_le _ _) (le_of_eq (Finset.card_univ (α := Fin N)))

/-- With a symmetric matching there are as many matched columns as matched
rows. -/
lemma card_matchedU_eq (s : HState N)
    (hsym : ∀ v u, s.mate_V v = some u ↔ s.mate_U u = some v) :
    (matchedU s).card = matchedCard s := by
  classical
  have hmemU : ∀ u, u ∈ matchedU s ↔ s.mate_U u ≠ none := by
    intro u
    simp [matchedU]
  have hmemV : ∀ v, v ∈ matchedV s ↔ s.mate_V v ≠ none := by
    intro v
    simp [matchedV]
  refine Finset.card_bij'
    (fun u hu => (s.mate_U u).get (Option.ne_none_iff_isSome.mp ((hmemU u).mp hu)))
    (fun v hv => (s.mate_V v).get (Option.ne_none_iff_isSome.mp ((hmemV v).mp hv)))
    ?_ ?_ ?_ ?_
  · intro u hu
    obtain ⟨r, hr⟩ := Option.ne_none_iff_exists'.mp ((hmemU u).mp hu)
    have h2 : s.mate_V r = some u := (hsym r u).mpr hr
    rw [hmemV]
    simp [hr, h2]
  · intro v hv
    obtain ⟨r, hr⟩ := Option.ne_none_iff_exists'.mp ((hmemV v).mp hv)
    have h2 : s.mate_U r = some v := (hsym v r).mp hr
    rw [hmemU]
    simp [hr, h2]
  · intro u hu
    obtain ⟨r, hr⟩ := Option.ne_none_iff_exists'.mp ((hmemU u).mp hu)
    have h2 : s.mate_V r = some u := (hsym r u).mpr hr
    simp [hr, h2]
  · intro v hv
    obtain ⟨r, hr⟩ := Option.ne_none_iff_exists'.mp ((hmemV v).mp hv)
    have h2 : s.mate_U r = some v := (hsym v r).mp hr
    simp [hr, h2]

lemma exists_unmatched_row (s : HState N) (k : ℕ) (hsz : matchedCard s = k)
    (hk : k < N) : ∃ v, s.mate_V v = none := by
  by_contra hall
  push_neg at hall
  have : matchedV s = Finset.univ := by
    apply Finset.eq_univ_of_forall
    intro v
    simp [matchedV, hall v]
  have h2 : matchedCard s = N := by
    simp [matchedCard, this]
  omega

lemma exists_unmatched_col (s : HState N) (k : ℕ)
    (hsym : ∀ v u, s.mate_V v = some u ↔ s.mate_U u = some v)
    (hsz : matchedCard s = k) (hk : k < N) : ∃ u, s.mate_U u = none := by
  by_contra hall
  push_neg at hall
  have : matchedU s = Finset.univ := by
    apply Finset.eq_univ_of_forall
    intro u
    simp [matchedU, hall u]
  have h2 : (matchedU s).card = N := by simp [this]
  rw [card_matchedU_eq s hsym, hsz] at h2
  omega

/-! The invariants.  PInv holds between phases, SInv at the start of every
iteration of the while loop of a phase, and Found at the moment the scan
returns an exposed column. -/

/-! Facts about theta and the dual update under the loop invariant. -/

lemma minSlack_le_of (s : HState N) (θ : Int) (u : Fin N) (x : Int)
    (hms : minSlack s = some θ) (hu : s.label_U u = false)
    (hx : s.slack u = some x) : θ ≤ x := by
  obtain ⟨θ2, h2, hle⟩ := minSlack_le s u x hu hx
  rw [hms] at h2
  injection h2 with h3
  omega

lemma sInv_exLab {k : ℕ} {s : HState N} (h : SInv k s) :
    ∃ v, s.label_V v = true := by
  obtain ⟨v, hv⟩ := exists_unmatched_row s k h.size h.klt
  exact ⟨v, h.rowsLv v hv⟩

lemma sInv_exUnlabCol {k : ℕ} {s : HState N} (h : SInv k s) :
    ∃ u, s.label_U u = false ∧ s.mate_U u = none := by
  obtain ⟨u, hu⟩ := exists_unmatched_col s k h.sym h.size h.klt
  refine ⟨u, ?_, hu⟩
  cases hl : s.label_U u with
  | false => rfl
  | true => exact absurd hu (h.colsLU u hl)

/-- Under the loop invariant theta exists, is attained at an unlabelled
column, and is non-negative and even. -/
lemma sInv_minSlack {k : ℕ} {s : HState N} (h : SInv k s) :
    ∃ θ, minSlack s = some θ ∧ 0 ≤ θ ∧ Even θ ∧
      ∃ us, s.label_U us = false ∧ s.slack us = some θ := by
  obtain ⟨v0, hv0⟩ := sInv_exLab h
  obtain ⟨u0, hu0, -⟩ := sInv_exUnlabCol h
  obtain ⟨x0, hx0, -⟩ := h.slackF u0 hu0 v0 hv0
  obtain ⟨θ, hθ, -⟩ := minSlack_le s u0 x0 hu0 hx0
  obtain ⟨us, hus1, hus2⟩ := minSlack_attained s θ hθ
  obtain ⟨w, -, hw2, hw3⟩ := h.slackE us hus1 θ hus2
  have hnn : 0 ≤ θ := by
    have := h.feas w us
    simp only [sBound] at hw3
    omega
  have hev : Even θ := by
    have h1 : Even (s.c w us) := h.cEven w us
    have h2 : Even (s.alpha w + s.beta us) := h.evenD w us
    have h3 : θ = s.c w us - (s.alpha w + s.beta us) := by
      simp only [sBound] at hw3
      omega
    rw [h3]
    exact h1.sub h2
  exact ⟨θ, hθ, hnn, hev, us, hus1, hus2⟩

/-- Characterization of update_alpha_beta under the loop invariant: twice
the returned value is exactly theta, and the new duals follow the labelled
shift pattern with the returned value. -/
lemma updAB_char {k : ℕ} {s : HState N} (h : SInv k s) :
    ∃ θ, minSlack s = some θ ∧ 0 ≤ θ ∧ Even θ ∧
    2 * (update_alpha_beta s).1 = θ ∧ 0 ≤ (update_alpha_beta s).1 ∧
    (∃ us, s.label_U us = false ∧ s.slack us = some θ) ∧
    (update_alpha_beta s).2.c = s.c ∧
    (update_alpha_beta s).2.mate_V = s.mate_V ∧
    (update_alpha_beta s).2.mate_U = s.mate_U ∧
    (update_alpha_beta s).2.nhbor = s.nhbor ∧
    (update_alpha_beta s).2.parent = s.parent ∧
    (update_alpha_beta s).2.slack = s.slack ∧
    (update_alpha_beta s).2.label_V = s.label_V ∧
    (update_alpha_beta s).2.label_U = s.label_U ∧
    (∀ i, (update_alpha_beta s).2.alpha i =
      if s.label_V i then s.alpha i + (update_alpha_beta s).1
      else s.alpha i - (update_alpha_beta s).1) ∧
    (∀ i, (update_alpha_beta s).2.beta i =
      if s.label_U i then s.beta i - (update_alpha_beta s).1
      else s.beta i + (update_alpha_beta s).1) := by
  obtain ⟨θ, hms, hnn, hev, hatt⟩ := sInv_minSlack h
  refine ⟨θ, hms, hnn, hev, ?_⟩
  by_cases hpos : 0 < θ
  · have hhalf : 2 * (θ / 2) = θ := by
      obtain ⟨m, rfl⟩ := hev
      omega
    have hru : update_alpha_beta s = (θ / 2, dualShift (θ / 2) s) := by
      rw [update_alpha_beta, hms]
      simp [hpos]
    rw [hru]
    refine ⟨hhalf, by omega, hatt, rfl, rfl, rfl, rfl, rfl, rfl, rfl, rfl, ?_, ?_⟩
    · intro i
      rfl
    · intro i
      rfl
  · have hz : θ = 0 := le_antisymm (not_lt.mp hpos) hnn
    subst hz
    have hru : update_alpha_beta s = (0, s) := by
      rw [update_alpha_beta, hms]
      simp
    rw [hru]
    refine ⟨by ring, le_refl 0, hatt, rfl, rfl, rfl, rfl, rfl, rfl, rfl, rfl, ?_, ?_⟩
    · intro i
      by_cases hl : s.label_V i <;> simp [hl]
    · intro i
      by_cases hl : s.label_U i <;> simp [hl]

/-- Restoration of the loop invariant by the combination of the dual shift
and the slack decrement of the scan: the shift temporarily breaks the slack
bookkeeping and the decrement by 2*theta repairs it. -/
lemma sInv_shift_scan {k : ℕ} {s s2 : HState N} (h : SInv k s) (θ t : Int)
    (hms : minSlack s = some θ) (h2t : 2 * t = θ) (hnn : 0 ≤ θ)
    (hc : s2.c = s.c) (hmv : s2.mate_V = s.mate_V) (hmu : s2.mate_U = s.mate_U)
    (hnh : s2.nhbor = s.nhbor) (hpar : s2.parent = s.parent)
    (hlv : s2.label_V = s.label_V) (hlu : s2.label_U = s.label_U)
    (ha : ∀ i, s2.alpha i = if s.label_V i then s.alpha i + t else s.alpha i - t)
    (hb : ∀ i, s2.beta i = if s.label_U i then s.beta i - t else s.beta i + t)
    (hsl : ∀ u, s.label_U u = false → s2.slack u = decSlack (s.slack u) θ) :
    SInv k s2 := by
  have htnn : 0 ≤ t := by omega
  have hsb : ∀ v u, s.label_V v = true → s.label_U u = false →
      sBound s2 v u = sBound s v u - θ := by
    intro v u hv hu
    simp only [sBound, hc, ha, hb, hv, hu, if_true, if_false, Bool.false_eq_true]
    omega
  refine ⟨?_, ?_, ?_, ?_, ?_, ?_, ?_, ?_, ?_, ?_, ?_, ?_, ?_, ?_, ?_, h.klt⟩
  · intro v u
    rw [hc]
    exact h.cNN v u
  · intro v u
    rw [hc]
    exact h.cEven v u
  · intro v u
    rw [hmv, hmu]
    exact h.sym v u
  · intro v u
    have hfe := h.feas v u
    by_cases hv : s.label_V v <;> by_cases hu : s.label_U u
    · rw [hc, ha v, hb u, if_pos hv, if_pos hu]
      omega
    · rw [hc, ha v, hb u, if_pos hv, if_neg hu]
      obtain ⟨x, hx1, hx2⟩ := h.slackF u (by simpa using hu) v (by simpa using hv)
      have hle := minSlack_le_of s θ u x hms (by simpa using hu) hx1
      simp only [sBound] at hx2
      omega
    · rw [hc, ha v, hb u, if_neg hv, if_pos hu]
      omega
    · rw [hc, ha v, hb u, if_neg hv, if_neg hu]
      omega
  · intro v u hm
    rw [hmv] at hm
    have hlab := h.labH v u hm
    have hti := h.tight v u hm
    rw [hc, ha, hb]
    by_cases hv : s.label_V v
    · rw [hv] at hlab
      simp only [hv, ← hlab, if_true]
      omega
    · have hvf : s.label_V v = false := by simpa using hv
      rw [hvf] at hlab
      simp only [hvf, ← hlab, if_false, Bool.false_eq_true]
      omega
  · intro v u
    have hevt : Even (2 * t) := even_two_mul t
    have hed := h.evenD v u
    by_cases hv : s.label_V v <;> by_cases hu : s.label_U u
    · rw [ha v, hb u, if_pos hv, if_pos hu]
      have h2 : s.alpha v + t + (s.beta u - t) = s.alpha v + s.beta u := by ring
      rw [h2]
      exact hed
    · rw [ha v, hb u, if_pos hv, if_neg hu]
      have h2 : s.alpha v + t + (s.beta u + t) = s.alpha v + s.beta u + 2 * t := by ring
      rw [h2]
      exact hed.add hevt
    · rw [ha v, hb u, if_neg hv, if_pos hu]
      have h2 : s.alpha v - t + (s.beta u - t) = s.alpha v + s.beta u - 2 * t := by ring
      rw [h2]
      exact hed.sub hevt
    · rw [ha v, hb u, if_neg hv, if_neg hu]
      have h2 : s.alpha v - t + (s.beta u + t) = s.alpha v + s.beta u := by ring
      rw [h2]
      exact hed
  · intro u hu x hx
    have huf : s.label_U u = false := by rw [← hu, hlu]
    rw [hsl u huf] at hx
    cases hy : s.slack u with
    | none => rw [hy] at hx; simp [decSlack] at hx
    | some y =>
      rw [hy] at hx
      simp only [decSlack, Option.some.injEq] at hx
      obtain ⟨v, hv1, hv2, hv3⟩ := h.slackE u huf y hy
      refine ⟨v, by rw [hnh]; exact hv1, by rw [hlv]; exact hv2, ?_⟩
      rw [hsb v u hv2 huf]
      omega
  · intro u hu v hv
    have huf : s.label_U u = false := by rw [← hu, hlu]
    have hvt : s.label_V v = true := by rw [← hv, hlv]
    obtain ⟨x, hx1, hx2⟩ := h.slackF u huf v hvt
    refine ⟨x - θ, ?_, ?_⟩
    · rw [hsl u huf, hx1]
      rfl
    · rw [hsb v u hvt huf]
      omega
  · intro v u hm
    rw [hmv] at hm
    rw [hlv, hlu]
    exact h.labH v u hm
  · intro v p hp
    rw [hpar] at hp
    obtain ⟨h1, h2, w, h3, h4, h5⟩ := h.parP v p hp
    refine ⟨by rw [hlv]; exact h1, by rw [hlv]; exact h2,
      w, by rw [hmv]; exact h3, by rw [hlu]; exact h4, ?_⟩
    rw [hc, ha, hb, h2, h4]
    simp only [if_true]
    omega
  · intro v hv hp
    rw [hmv]
    exact h.rootR v (by rw [← hlv]; exact hv) (by rw [← hpar]; exact hp)
  · obtain ⟨rk, hr1, hr2, hr3⟩ := h.rankOK
    have hlc : labCardV s2 = labCardV s := by
      simp [labCardV, labVset, hlv]
    refine ⟨rk, ?_, ?_, ?_⟩
    · intro v p hp
      exact hr1 v p (by rw [← hpar]; exact hp)
    · intro v hv
      rw [hlc]
      exact hr2 v (by rw [← hlv]; exact hv)
    · intro u w hu hw
      rw [hlc, hlv]
      exact hr3 u w (by rw [← hlu]; exact hu) (by rw [← hnh]; exact hw)
  · intro v hm
    rw [hlv]
    exact h.rowsLv v (by rw [← hmv]; exact hm)
  · intro u hu
    rw [hmu]
    exact h.colsLU u (by rw [← hlu]; exact hu)
  · have : matchedV s2 = matchedV s := by
      simp [matchedV, hmv]
    rw [matchedCard, this]
    exact h.size

/-! The promotion step and its effect on the invariant. -/

@[simp] lemma promoteStep_c (u r : Fin N) (s : HState N) :
    (promoteStep u r s).c = s.c := rfl

@[simp] lemma promoteStep_mate_V (u r : Fin N) (s : HState N) :
    (promoteStep u r s).mate_V = s.mate_V := rfl

@[simp] lemma promoteStep_mate_U (u r : Fin N) (s : HState N) :
    (promoteStep u r s).mate_U = s.mate_U := rfl

@[simp] lemma promoteStep_alpha (u r : Fin N) (s : HState N) :
    (promoteStep u r s).alpha = s.alpha := rfl

@[simp] lemma promoteStep_beta (u r : Fin N) (s : HState N) :
    (promoteStep u r s).beta = s.beta := rfl

lemma promoteStep_label_U (u r : Fin N) (s : HState N) :
    (promoteStep u r s).label_U = Function.update s.label_U u true := rfl

lemma promoteStep_label_V (u r : Fin N) (s : HState N) :
    (promoteStep u r s).label_V = Function.update s.label_V r true := rfl

lemma promoteStep_parent (u r : Fin N) (s : HState N) :
    (promoteStep u r s).parent = Function.update s.parent r (s.nhbor u) := rfl

lemma promoteStep_slack (u r u2 : Fin N) (s : HState N) :
    (promoteStep u r s).slack u2 =
      if promRelax u r s u2 then some (sBound s r u2) else s.slack u2 := rfl

lemma promoteStep_nhbor (u r u2 : Fin N) (s : HState N) :
    (promoteStep u r s).nhbor u2 =
      if promRelax u r s u2 then some r else s.nhbor u2 := rfl

lemma ltInf_false (b : Int) (o : Option Int) (h : ltInf b o = false) :
    ∃ y, o = some y ∧ y ≤ b := by
  cases o with
  | none => simp [ltInf] at h
  | some y =>
    refine ⟨y, rfl, ?_⟩
    simp only [ltInf, decide_eq_false_iff_not] at h
    omega

lemma promRelax_false (u r u2 : Fin N) (s : HState N)
    (h : promRelax u r s u2 = false) (hne : u2 ≠ u)
    (hlab : s.label_U u2 = false) (hnn : 0 ≤ sBound s r u2) :
    ∃ y, s.slack u2 = some y ∧ y ≤ sBound s r u2 := by
  have h1 : Function.update s.label_U u true u2 = false := by
    rw [Function.update_apply, if_neg hne]
    exact hlab
  simp only [promRelax, h1, Bool.not_false, Bool.true_and, decide_eq_true_eq,
    Bool.and_eq_false_imp] at h
  exact ltInf_false _ _ (h (by simpa using hnn))

lemma promRelax_true (u r u2 : Fin N) (s : HState N)
    (h : promRelax u r s u2 = true) :
    Function.update s.label_U u true u2 = false ∧ 0 ≤ sBound s r u2 ∧
      ltInf (sBound s r u2) (s.slack u2) = true := by
  simp only [promRelax, Bool.and_eq_true, Bool.not_eq_true', decide_eq_true_eq] at h
  exact ⟨h.1, h.2.1, h.2.2⟩

lemma labCardV_promoteStep (u r : Fin N) (s : HState N)
    (hr : s.label_V r = false) :
    labCardV (promoteStep u r s) = labCardV s + 1 := by
  have hset : labVset (promoteStep u r s) = insert r (labVset s) := by
    ext v
    simp only [labVset, promoteStep_label_V, Finset.mem_filter, Finset.mem_univ,
      true_and, Finset.mem_insert, Function.update_apply]
    by_cases hv : v = r
    · simp [hv]
    · simp [hv]
  have hmem : r ∉ labVset s := by
    simp [labVset, hr]
  rw [labCardV, hset, Finset.card_insert_of_not_mem hmem]
  rfl

lemma colMeasure_promoteStep (u r : Fin N) (s : HState N)
    (hu : s.label_U u = false) (hm : s.mate_U u = some r) :
    colMeasure (promoteStep u r s) < colMeasure s := by
  have hset : (Finset.univ.filter fun u2 =>
      (promoteStep u r s).label_U u2 = false ∧ (promoteStep u r s).mate_U u2 ≠ none) =
      (Finset.univ.filter fun u2 => s.label_U u2 = false ∧ s.mate_U u2 ≠ none).erase u := by
    ext u2
    simp only [Finset.mem_filter, Finset.mem_univ, true_and, Finset.mem_erase,
      promoteStep_mate_U, promoteStep_label_U, Function.update_apply]
    by_cases h2 : u2 = u
    · simp [h2]
    · simp [h2]
  have hmem : u ∈ Finset.univ.filter fun u2 =>
      s.label_U u2 = false ∧ s.mate_U u2 ≠ none := by
    simp [hu, hm]
  have hpos : 0 < (Finset.univ.filter fun u2 =>
      s.label_U u2 = false ∧ s.mate_U u2 ≠ none).card :=
    Finset.card_pos.mpr ⟨u, hmem⟩
  rw [colMeasure, colMeasure, hset, Finset.card_erase_of_mem hmem]
  omega

/-- The promotion of one admissible matched column preserves the loop
invariant, and every other pending admissible column keeps slack zero. -/
lemma promoteStep_inv {k : ℕ} {s : HState N} (h : SInv k s) (u r : Fin N)
    (hu : s.label_U u = false) (hs0 : s.slack u = some 0)
    (hm : s.mate_U u = some r) :
    SInv k (promoteStep u r s) ∧
    (∀ u2, u2 ≠ u → s.label_U u2 = false → s.slack u2 = some 0 →
      (promoteStep u r s).slack u2 = some 0) := by
  have hmv : s.mate_V r = some u := (h.sym r u).mpr hm
  have hrlab : s.label_V r = false := by
    have h2 := h.labH r u hmv
    rw [hu] at h2
    exact h2
  obtain ⟨w, hw1, hw2, hw3⟩ := h.slackE u hu 0 hs0
  have hwr : w ≠ r := by
    intro he
    rw [he, hrlab] at hw2
    exact absurd hw2 (by simp)
  have htightwu : s.alpha w + s.beta u = s.c w u := by
    simp only [sBound] at hw3
    omega
  have hkeep0 : ∀ u2, u2 ≠ u → s.label_U u2 = false → s.slack u2 = some 0 →
      (promoteStep u r s).slack u2 = some 0 := by
    intro u2 hne hl2 h02
    rw [promoteStep_slack]
    cases hrel : promRelax u r s u2 with
    | false => rw [if_neg (by simp)]; exact h02
    | true =>
      obtain ⟨-, hb1, hb2⟩ := promRelax_true u r u2 s hrel
      rw [h02] at hb2
      simp only [ltInf, decide_eq_true_eq] at hb2
      omega
  have hunla : ∀ u2, (promoteStep u r s).label_U u2 = false →
      u2 ≠ u ∧ s.label_U u2 = false := by
    intro u2 h2
    rw [promoteStep_label_U, Function.update_apply] at h2
    by_cases he : u2 = u
    · rw [if_pos he] at h2
      exact absurd h2 (by simp)
    · rw [if_neg he] at h2
      exact ⟨he, h2⟩
  refine ⟨⟨?_, ?_, ?_, ?_, ?_, ?_, ?_, ?_, ?_, ?_, ?_, ?_, ?_, ?_, ?_, h.klt⟩, hkeep0⟩
  · exact h.cNN
  · exact h.cEven
  · exact h.sym
  · exact h.feas
  · exact h.tight
  · exact h.evenD
  · -- slackE
    intro u2 hl2 x hx
    obtain ⟨hne, hl2s⟩ := hunla u2 hl2
    rw [promoteStep_slack] at hx
    rw [promoteStep_nhbor]
    cases hrel : promRelax u r s u2 with
    | true =>
      rw [hrel, if_pos rfl] at hx
      rw [if_pos rfl]
      refine ⟨r, rfl, ?_, ?_⟩
      · rw [promoteStep_label_V, Function.update_apply, if_pos rfl]
      · injection hx with hx2
        rw [← hx2]
        rfl
    | false =>
      rw [hrel, if_neg (by simp)] at hx
      rw [if_neg (by simp)]
      obtain ⟨v, hv1, hv2, hv3⟩ := h.slackE u2 hl2s x hx
      refine ⟨v, hv1, ?_, ?_⟩
      · rw [promoteStep_label_V, Function.update_apply]
        by_cases hvr : v = r
        · rw [if_pos hvr]
        · rw [if_neg hvr]
          exact hv2
      · rw [hv3]
        rfl
  · -- slackF
    intro u2 hl2 v hv
    obtain ⟨hne, hl2s⟩ := hunla u2 hl2
    rw [promoteStep_label_V, Function.update_apply] at hv
    rw [promoteStep_slack]
    have hsb : sBound (promoteStep u r s) v u2 = sBound s v u2 := rfl
    rw [hsb]
    by_cases hvr : v = r
    · subst hvr
      cases hrel : promRelax u v s u2 with
      | true =>
        exact ⟨sBound s v u2, by rw [if_pos rfl], le_refl _⟩
      | false =>
        have hnn : 0 ≤ sBound s v u2 := by
          have := h.feas v u2
          simp only [sBound]
          omega
        obtain ⟨y, hy1, hy2⟩ := promRelax_false u v u2 s hrel hne hl2s hnn
        exact ⟨y, by rw [if_neg (by simp)]; exact hy1, hy2⟩
    · rw [if_neg hvr] at hv
      obtain ⟨x, hx1, hx2⟩ := h.slackF u2 hl2s v hv
      cases hrel : promRelax u r s u2 with
      | true =>
        obtain ⟨-, -, hlt⟩ := promRelax_true u r u2 s hrel
        rw [hx1] at hlt
        simp only [ltInf, decide_eq_true_eq] at hlt
        refine ⟨sBound s r u2, by rw [if_pos rfl], ?_⟩
        omega
      | false =>
        exact ⟨x, by rw [if_neg (by simp)]; exact hx1, hx2⟩
  · -- labH
    intro v u2 hmate
    rw [promoteStep_mate_V] at hmate
    rw [promoteStep_label_V, promoteStep_label_U, Function.update_apply,
      Function.update_apply]
    by_cases hvr : v = r
    · subst hvr
      have hu2 : u2 = u := by
        rw [hmv] at hmate
        injection hmate with h2
        exact h2.symm
      subst hu2
      rw [if_pos rfl, if_pos rfl]
    · have hu2 : u2 ≠ u := by
        intro he
        subst he
        have := (h.sym v u2).mp hmate
        rw [hm] at this
        injection this with h2
        exact hvr h2.symm
      rw [if_neg hvr, if_neg hu2]
      exact h.labH v u2 hmate
  · -- parP
    intro v p hp
    rw [promoteStep_parent, Function.update_apply] at hp
    by_cases hvr : v = r
    · subst hvr
      rw [if_pos rfl, hw1] at hp
      have hpw : p = w := by
        injection hp with h2
        exact h2.symm
      subst hpw
      refine ⟨?_, ?_, u, ?_, ?_, ?_⟩
      · rw [promoteStep_label_V, Function.update_apply, if_pos rfl]
      · rw [promoteStep_label_V, Function.update_apply, if_neg hwr]
        exact hw2
      · rw [promoteStep_mate_V]
        exact hmv
      · rw [promoteStep_label_U, Function.update_apply, if_pos rfl]
      · exact htightwu
    · rw [if_neg hvr] at hp
      obtain ⟨hp1, hp2, a, hp3, hp4, hp5⟩ := h.parP v p hp
      have hau : a ≠ u := by
        intro he
        rw [he, hu] at hp4
        exact absurd hp4 (by simp)
      refine ⟨?_, ?_, a, ?_, ?_, ?_⟩
      · rw [promoteStep_label_V, Function.update_apply, if_neg hvr]
        exact hp1
      · rw [promoteStep_label_V, Function.update_apply]
        by_cases hpr : p = r
        · rw [if_pos hpr]
        · rw [if_neg hpr]
          exact hp2
      · rw [promoteStep_mate_V]
        exact hp3
      · rw [promoteStep_label_U, Function.update_apply, if_neg hau]
        exact hp4
      · exact hp5
  · -- rootR
    intro v hv hp
    rw [promoteStep_parent, Function.update_apply] at hp
    by_cases hvr : v = r
    · rw [if_pos hvr, hw1] at hp
      exact absurd hp (by simp)
    · rw [if_neg hvr] at hp
      rw [promoteStep_label_V, Function.update_apply, if_neg hvr] at hv
      rw [promoteStep_mate_V]
      exact h.rootR v hv hp
  · -- rankOK
    obtain ⟨rk, hr1, hr2, hr3⟩ := h.rankOK
    have hcard : labCardV (promoteStep u r s) = labCardV s + 1 :=
      labCardV_promoteStep u r s hrlab
    refine ⟨Function.update rk r (labCardV s), ?_, ?_, ?_⟩
    · intro v p hp
      rw [promoteStep_parent, Function.update_apply] at hp
      by_cases hvr : v = r
      · subst hvr
        rw [if_pos rfl, hw1] at hp
        have hpw : p = w := by
          injection hp with h2
          exact h2.symm
        subst hpw
        obtain ⟨-, hwlt⟩ := hr3 u p hu hw1
        rw [Function.update_apply, if_neg hwr, Function.update_apply, if_pos rfl]
        exact hwlt
      · rw [if_neg hvr] at hp
        obtain ⟨-, hp2, -⟩ := h.parP v p hp
        have hpr : p ≠ r := by
          intro he
          rw [he, hrlab] at hp2
          exact absurd hp2 (by simp)
        rw [Function.update_apply, if_neg hpr, Function.update_apply, if_neg hvr]
        exact hr1 v p hp
    · intro v hv
      rw [hcard, Function.update_apply]
      by_cases hvr : v = r
      · rw [if_pos hvr]
        omega
      · rw [if_neg hvr]
        rw [promoteStep_label_V, Function.update_apply, if_neg hvr] at hv
        have := hr2 v hv
        omega
    · intro u2 w2 hl2 hw2q
      obtain ⟨hne, hl2s⟩ := hunla u2 hl2
      rw [promoteStep_nhbor] at hw2q
      rw [hcard]
      cases hrel : promRelax u r s u2 with
      | true =>
        rw [hrel, if_pos rfl] at hw2q
        have hw2r : w2 = r := by
          injection hw2q with h2
          exact h2.symm
        subst hw2r
        constructor
        · rw [promoteStep_label_V, Function.update_apply, if_pos rfl]
        · rw [Function.update_apply, if_pos rfl]
          omega
      | false =>
        rw [hrel, if_neg (by simp)] at hw2q
        obtain ⟨hlw2, hltw2⟩ := hr3 u2 w2 hl2s hw2q
        have hw2r : w2 ≠ r := by
          intro he
          rw [he, hrlab] at hlw2
          exact absurd hlw2 (by simp)
        constructor
        · rw [promoteStep_label_V, Function.update_apply, if_neg hw2r]
          exact hlw2
        · rw [Function.update_apply, if_neg hw2r]
          omega
  · -- rowsLv
    intro v hv
    rw [promoteStep_mate_V] at hv
    rw [promoteStep_label_V, Function.update_apply]
    by_cases hvr : v = r
    · rw [if_pos hvr]
    · rw [if_neg hvr]
      exact h.rowsLv v hv
  · -- colsLU
    intro u2 hl2
    rw [promoteStep_mate_U]
    rw [promoteStep_label_U, Function.update_apply] at hl2
    by_cases hu2 : u2 = u
    · rw [hu2, hm]
      simp
    · rw [if_neg hu2] at hl2
      exact h.colsLU u2 hl2
  · -- size
    have : matchedV (promoteStep u r s) = matchedV s := by
      simp [matchedV, promoteStep_mate_V]
    rw [matchedCard, this]
    exact h.size

/-- Promoting a duplicate-free list of admissible matched columns preserves
the loop invariant, never increases the number of unlabelled matched
columns, and strictly decreases it when the list is nonempty. -/
lemma promote_inv (adm : List (Fin N)) : ∀ {k : ℕ} (s : HState N), SInv k s →
    adm.Nodup →
    (∀ u ∈ adm, s.label_U u = false ∧ s.slack u = some 0 ∧ s.mate_U u ≠ none) →
    SInv k (promote adm s) ∧ colMeasure (promote adm s) ≤ colMeasure s ∧
      (adm ≠ [] → colMeasure (promote adm s) < colMeasure s) := by
  induction adm with
  | nil =>
    intro k s h _ _
    exact ⟨h, le_refl _, fun h2 => absurd rfl h2⟩
  | cons u l ih =>
    intro k s h hnd hprop
    have hul : u ∉ l := (List.nodup_cons.mp hnd).1
    have hnd2 : l.Nodup := (List.nodup_cons.mp hnd).2
    obtain ⟨hu, hs0, hmne⟩ := hprop u (List.mem_cons_self u l)
    obtain ⟨r, hm⟩ := Option.ne_none_iff_exists'.mp hmne
    have hred : promote (u :: l) s = promote l (promoteStep u r s) := by
      rw [promote, hm]
    obtain ⟨hinv2, hkeep⟩ := promoteStep_inv h u r hu hs0 hm
    have hprop2 : ∀ u2 ∈ l, (promoteStep u r s).label_U u2 = false ∧
        (promoteStep u r s).slack u2 = some 0 ∧
        (promoteStep u r s).mate_U u2 ≠ none := by
      intro u2 hu2
      obtain ⟨p1, p2, p3⟩ := hprop u2 (List.mem_cons_of_mem u hu2)
      have hne : u2 ≠ u := fun he => hul (he ▸ hu2)
      refine ⟨?_, hkeep u2 hne p1 p2, ?_⟩
      · rw [promoteStep_label_U, Function.update_apply, if_neg hne]
        exact p1
      · rw [promoteStep_mate_U]
        exact p3
    obtain ⟨ih1, ih2, -⟩ := ih (promoteStep u r s) hinv2 hnd2 hprop2
    have hdec : colMeasure (promoteStep u r s) < colMeasure s :=
      colMeasure_promoteStep u r s hu hm
    rw [hred]
    exact ⟨ih1, by omega, fun _ => by omega⟩

/-- One iteration of the search loop under the invariant: either it finds
an exposed column with the phase-end facts, or the invariant persists and
the number of unlabelled matched columns strictly drops. -/
theorem searchStep_spec {k : ℕ} {s : HState N} (h : SInv k s) :
    (∃ s3, searchStep s = Sum.inl s3 ∧ SInv k s3 ∧ colMeasure s3 < colMeasure s) ∨
    (∃ u s2, searchStep s = Sum.inr (u, s2) ∧ Found k u s2) := by
  obtain ⟨θ, hms, hθnn, hθev, h2t, htnn, hatt, hc, hmv, hmu, hnh, hpar, hsl,
    hlv, hlu, ha, hb⟩ := updAB_char h
  obtain ⟨us, hus1, hus2⟩ := hatt
  rcases hscan : scanCols (update_alpha_beta s).1 (List.finRange N)
      (update_alpha_beta s).2 [] with ⟨s2, adm2, fo⟩
  have hpres := scanCols_preserve (update_alpha_beta s).1 (List.finRange N)
    (update_alpha_beta s).2 []
  rw [hscan] at hpres
  obtain ⟨hp1, hp2, hp3, hp4, hp5, hp6, hp7, hp8, hp9⟩ := hpres
  cases fo with
  | some u =>
    right
    have hstep : searchStep s = Sum.inr (u, s2) := by
      rw [searchStep, hscan]
    obtain ⟨-, hfo2, hfo3, hfo4⟩ := scanCols_found (update_alpha_beta s).1
      (List.finRange N) (update_alpha_beta s).2 [] (List.nodup_finRange N)
      s2 adm2 u hscan
    rw [hlu] at hfo2
    rw [hsl] at hfo3
    rw [hmu] at hfo4
    have hslu : ∃ y, s.slack u = some y ∧ y = θ := by
      cases hy : s.slack u with
      | none => rw [hy] at hfo3; simp [decSlack] at hfo3
      | some y =>
        rw [hy] at hfo3
        simp only [decSlack, Option.some.injEq] at hfo3
        exact ⟨y, rfl, by omega⟩
    obtain ⟨y, hy1, hy2⟩ := hslu
    rw [hy2] at hy1
    obtain ⟨w, hw1, hw2, hw3⟩ := h.slackE u hfo2 θ hy1
    have hInv2 : SInv k { s2 with slack := fun u2 => decSlack (s.slack u2) θ } := by
      refine sInv_shift_scan h θ (update_alpha_beta s).1 hms h2t hθnn ?_ ?_ ?_ ?_ ?_
        ?_ ?_ ?_ ?_ ?_
      · rw [show ({ s2 with slack := fun u2 => decSlack (s.slack u2) θ } :
          HState N).c = s2.c from rfl, hp1, hc]
      · rw [show ({ s2 with slack := fun u2 => decSlack (s.slack u2) θ } :
          HState N).mate_V = s2.mate_V from rfl, hp2, hmv]
      · rw [show ({ s2 with slack := fun u2 => decSlack (s.slack u2) θ } :
          HState N).mate_U = s2.mate_U from rfl, hp3, hmu]
      · rw [show ({ s2 with slack := fun u2 => decSlack (s.slack u2) θ } :
          HState N).nhbor = s2.nhbor from rfl, hp4, hnh]
      · rw [show ({ s2 with slack := fun u2 => decSlack (s.slack u2) θ } :
          HState N).parent = s2.parent from rfl, hp5, hpar]
      · rw [show ({ s2 with slack := fun u2 => decSlack (s.slack u2) θ } :
          HState N).label_V = s2.label_V from rfl, hp8, hlv]
      · rw [show ({ s2 with slack := fun u2 => decSlack (s.slack u2) θ } :
          HState N).label_U = s2.label_U from rfl, hp9, hlu]
      · intro i
        rw [show ({ s2 with slack := fun u2 => decSlack (s.slack u2) θ } :
          HState N).alpha = s2.alpha from rfl, hp6]
        exact ha i
      · intro i
        rw [show ({ s2 with slack := fun u2 => decSlack (s.slack u2) θ } :
          HState N).beta = s2.beta from rfl, hp7]
        exact hb i
      · intro u2 _
        rfl
    refine ⟨u, s2, by rw [hstep], ?_⟩
    refine ⟨?_, ?_, ?_, ?_, ?_, ?_, ?_, ?_, ?_, ?_, ?_, ?_⟩
    · exact hInv2.cNN
    · exact hInv2.cEven
    · exact hInv2.sym
    · exact hInv2.feas
    · exact hInv2.tight
    · exact hInv2.evenD
    · intro v p hp
      obtain ⟨q1, q2, w2, q3, q4, q5⟩ := hInv2.parP v p hp
      exact ⟨q1, q2, w2, q3, q5⟩
    · exact hInv2.rootR
    · obtain ⟨rk, hr1, hr2, -⟩ := hInv2.rankOK
      refine ⟨rk, hr1, ?_⟩
      intro v hv
      have h5 := hr2 v hv
      have h6 := labCardV_le { s2 with slack := fun u2 => decSlack (s.slack u2) θ }
      omega
    · exact hInv2.size
    · rw [hp3, hmu]
      exact hfo4
    · refine ⟨w, ?_, ?_, ?_⟩
      · rw [hp4, hnh]
        exact hw1
      · rw [hp8, hlv]
        exact hw2
      · have hA := ha w
        have hB := hb u
        rw [hw2, if_pos rfl] at hA
        rw [hfo2] at hB
        rw [if_neg (by simp)] at hB
        have hCeq : s2.c w u = s.c w u := by rw [hp1, hc]
        have hAeq : s2.alpha w = s.alpha w + (update_alpha_beta s).1 := by
          rw [hp6]; exact hA
        have hBeq : s2.beta u = s.beta u + (update_alpha_beta s).1 := by
          rw [hp7]; exact hB
        simp only [sBound] at hw3
        rw [hCeq, hAeq, hBeq]
        omega
  | none =>
    left
    have hstep : searchStep s = Sum.inl (promote adm2 s2) := by
      rw [searchStep, hscan]
    obtain ⟨hn1, hn2, hn3, hn4⟩ := scanCols_none (update_alpha_beta s).1
      (List.finRange N) (update_alpha_beta s).2 [] (List.nodup_finRange N)
      s2 adm2 hscan
    have hInv2 : SInv k s2 := by
      refine sInv_shift_scan h θ (update_alpha_beta s).1 hms h2t hθnn
        (by rw [hp1, hc]) (by rw [hp2, hmv]) (by rw [hp3, hmu])
        (by rw [hp4, hnh]) (by rw [hp5, hpar]) (by rw [hp8, hlv])
        (by rw [hp9, hlu])
        (fun i => by rw [hp6]; exact ha i)
        (fun i => by rw [hp7]; exact hb i) ?_
      intro u2 hu2
      have := hn1 u2 (List.mem_finRange u2)
      rw [hlu, hu2] at this
      rw [this, if_neg (by simp), hsl, h2t]
    have hprop2 : ∀ u2 ∈ adm2, s2.label_U u2 = false ∧ s2.slack u2 = some 0 ∧
        s2.mate_U u2 ≠ none := by
      intro u2 hu2
      rw [hn3, List.nil_append] at hu2
      have hu2f := List.of_mem_filter hu2
      have hu2m := List.mem_of_mem_filter hu2
      simp only [admAt, Bool.and_eq_true, Bool.not_eq_true', decide_eq_true_eq] at hu2f
      obtain ⟨hf1, hf2⟩ := hu2f
      rw [hsl] at hf2
      rw [hlu] at hf1
      refine ⟨by rw [hp9, hlu]; exact hf1, ?_, ?_⟩
      · have := hn1 u2 (List.mem_finRange u2)
        rw [hlu, hf1, if_neg (by simp), hsl] at this
        rw [this]
        exact hf2
      · rw [hp3, hmu]
        have := hn4 u2 (List.mem_finRange u2) (by rw [hlu]; exact hf1)
          (by rw [hsl]; exact hf2)
        rw [hmu] at this
        exact this
    have hnodup : adm2.Nodup := by
      rw [hn3, List.nil_append]
      exact (List.nodup_finRange N).filter _
    obtain ⟨hq1, hq2, hq3⟩ := promote_inv adm2 s2 hInv2 hnodup hprop2
    have hne : adm2 ≠ [] := by
      have hmem : us ∈ adm2 := by
        rw [hn3, List.nil_append]
        apply List.mem_filter.mpr
        refine ⟨List.mem_finRange us, ?_⟩
        simp only [admAt, Bool.and_eq_true, Bool.not_eq_true', decide_eq_true_eq]
        refine ⟨by rw [hlu]; exact hus1, ?_⟩
        rw [hsl, hus2, h2t]
        simp [decSlack]
      intro he
      rw [he] at hmem
      exact absurd hmem (List.not_mem_nil us)
    have hcm : colMeasure s2 = colMeasure s := by
      have : (Finset.univ.filter fun u2 => s2.label_U u2 = false ∧
          s2.mate_U u2 ≠ none) =
          Finset.univ.filter fun u2 => s.label_U u2 = false ∧ s.mate_U u2 ≠ none := by
        apply Finset.filter_congr
        intro u2 _
        rw [hp9, hlu, hp3, hmu]
      rw [colMeasure, colMeasure, this]
    refine ⟨promote adm2 s2, by rw [hstep], hq1, ?_⟩
    have := hq3 hne
    omega

/-! Termination of the search loop. -/

lemma colMeasure_le {k : ℕ} {s : HState N} (h : SInv k s) : colMeasure s ≤ k := by
  have hsub : (Finset.univ.filter fun u => s.label_U u = false ∧ s.mate_U u ≠ none) ⊆
      matchedU s := by
    intro u hu
    simp only [Finset.mem_filter, Finset.mem_univ, true_and] at hu
    simp [matchedU, hu.2]
  have h1 : colMeasure s ≤ (matchedU s).card := Finset.card_le_card hsub
  rw [card_matchedU_eq s h.sym, h.size] at h1
  exact h1

/-- With fuel exceeding the number of unlabelled matched columns, the while
loop of the search returns an exposed column satisfying the phase-end
facts. -/
lemma searchLoop_succeeds {k : ℕ} : ∀ (fuel : ℕ) (s : HState N), SInv k s →
    colMeasure s < fuel →
    ∃ u s2, searchLoop fuel s = some (u, s2) ∧ Found k u s2 := by
  intro fuel
  induction fuel with
  | zero =>
    intro s _ h2
    omega
  | succ fuel ih =>
    intro s h hlt
    rcases searchStep_spec h with ⟨s3, h1, h2, h3⟩ | ⟨u, s2, h1, h2⟩
    · obtain ⟨u, s4, h4, h5⟩ := ih s3 h2 (by omega)
      exact ⟨u, s4, by rw [searchLoop, h1]; exact h4, h5⟩
    · exact ⟨u, s2, by rw [searchLoop, h1], h2⟩

/-! Establishment of the loop invariant by the seeding at a phase start. -/

lemma relaxes_false_sl (s : HState N) (v u : Fin N) (h : relaxes s v u = false)
    (hlab : s.label_U u = false) (hnn : 0 ≤ sBound s v u) :
    ∃ y, s.slack u = some y ∧ y ≤ sBound s v u := by
  simp only [relaxes, hlab, Bool.not_false, Bool.true_and, Bool.and_eq_false_imp,
    decide_eq_true_eq] at h
  exact ltInf_false _ _ (h hnn)

lemma relaxes_true_sl (s : HState N) (v u : Fin N) (h : relaxes s v u = true) :
    s.label_U u = false ∧ 0 ≤ sBound s v u ∧
      ltInf (sBound s v u) (s.slack u) = true := by
  simp only [relaxes, Bool.and_eq_true, Bool.not_eq_true', decide_eq_true_eq] at h
  exact ⟨h.1, h.2.1, h.2.2⟩

/-- One seeding step: labelling an unmatched row and relaxing from it
preserves the seeding invariant. -/
lemma seedStep_inv {k : ℕ} {s : HState N} (h : SeedInv k s) (v : Fin N)
    (hm : s.mate_V v = none) :
    SeedInv k (update_slack v { s with label_V := Function.update s.label_V v true }) := by
  have hrel : ∀ u, relaxes { s with label_V := Function.update s.label_V v true } v u =
      relaxes s v u := fun u => rfl
  have hsb : ∀ v2 u,
      sBound (update_slack v { s with label_V := Function.update s.label_V v true }) v2 u =
      sBound s v2 u := fun v2 u => rfl
  refine ⟨h.cNN, h.cEven, h.sym, h.feas, h.tight, h.evenD, ?_, h.labU, h.par,
    ?_, ?_, ?_, ?_⟩
  · have : matchedV (update_slack v
        { s with label_V := Function.update s.label_V v true }) = matchedV s := by
      simp [matchedV, update_slack]
    rw [matchedCard, this]
    exact h.size
  · intro v2 hv2
    rw [update_slack_label_V] at hv2
    simp only [Function.update_apply] at hv2
    by_cases hvv : v2 = v
    · rw [hvv]
      exact hm
    · rw [if_neg hvv] at hv2
      exact h.labMate v2 hv2
  · intro u x hx
    rw [update_slack_slack, hrel] at hx
    rw [update_slack_nhbor, hrel]
    cases hr : relaxes s v u with
    | true =>
      rw [hr, if_pos rfl] at hx
      rw [if_pos rfl]
      refine ⟨v, rfl, ?_, ?_⟩
      · rw [update_slack_label_V]
        simp [Function.update_apply]
      · injection hx with h2
        rw [← h2]
        exact rfl
    | false =>
      rw [hr, if_neg (by simp)] at hx
      rw [if_neg (by simp)]
      obtain ⟨w, hw1, hw2, hw3⟩ := h.slE u x hx
      refine ⟨w, hw1, ?_, ?_⟩
      · rw [update_slack_label_V]
        simp only [Function.update_apply]
        by_cases hwv : w = v
        · rw [if_pos hwv]
        · rw [if_neg hwv]
          exact hw2
      · rw [hw3]
        exact rfl
  · intro u v2 hv2
    rw [update_slack_label_V] at hv2
    simp only [Function.update_apply] at hv2
    rw [update_slack_slack, hrel]
    have hnn : 0 ≤ sBound s v u := by
      have := h.feas v u
      simp only [sBound]
      omega
    by_cases hvv : v2 = v
    · subst hvv
      cases hr : relaxes s v2 u with
      | true => exact ⟨sBound s v2 u, by rw [if_pos rfl]; exact rfl, le_refl _⟩
      | false =>
        obtain ⟨y, hy1, hy2⟩ := relaxes_false_sl s v2 u hr (h.labU u) hnn
        exact ⟨y, by rw [if_neg (by simp)]; exact hy1, hy2⟩
    · rw [if_neg hvv] at hv2
      obtain ⟨x, hx1, hx2⟩ := h.slF u v2 hv2
      cases hr : relaxes s v u with
      | true =>
        obtain ⟨-, -, hlt⟩ := relaxes_true_sl s v u hr
        rw [hx1] at hlt
        simp only [ltInf, decide_eq_true_eq] at hlt
        refine ⟨sBound s v u, by rw [if_pos rfl]; exact rfl, ?_⟩
        show sBound s v u ≤ sBound s v2 u
        omega
      | false =>
        exact ⟨x, by rw [if_neg (by simp)]; exact hx1, hx2⟩
  · intro u w hw
    rw [update_slack_nhbor, hrel] at hw
    rw [update_slack_label_V]
    simp only [Function.update_apply]
    cases hr : relaxes s v u with
    | true =>
      rw [hr, if_pos rfl] at hw
      injection hw with h2
      rw [← h2]
      simp
    | false =>
      rw [hr, if_neg (by simp)] at hw
      by_cases hwv : w = v
      · rw [if_pos hwv]
      · rw [if_neg hwv]
        exact h.nh u w hw

/-- The seeding loop preserves the seeding invariant, never changes the
matching, only adds row labels, and labels every unmatched row that it
visits. -/
lemma seedRows_inv (l : List (Fin N)) : ∀ {k : ℕ} (s : HState N), SeedInv k s →
    SeedInv k (seedRows l s) ∧
    (seedRows l s).mate_V = s.mate_V ∧
    (∀ v, s.label_V v = true → (seedRows l s).label_V v = true) ∧
    (∀ v ∈ l, s.mate_V v = none → (seedRows l s).label_V v = true) := by
  induction l with
  | nil =>
    intro k s h
    exact ⟨h, rfl, fun v hv => hv, by simp⟩
  | cons v l ih =>
    intro k s h
    by_cases hm : s.mate_V v = none
    · rw [seedRows, if_pos hm]
      have h1 := seedStep_inv h v hm
      obtain ⟨ih1, ih2, ih3, ih4⟩ :=
        ih (update_slack v { s with label_V := Function.update s.label_V v true }) h1
      have hmv1 : (update_slack v
          { s with label_V := Function.update s.label_V v true }).mate_V = s.mate_V := rfl
      have hlabmono : ∀ v2, s.label_V v2 = true →
          (update_slack v
            { s with label_V := Function.update s.label_V v true }).label_V v2 = true := by
        intro v2 hv2
        show Function.update s.label_V v true v2 = true
        rw [Function.update_apply]
        by_cases hvv : v2 = v
        · rw [if_pos hvv]
        · rw [if_neg hvv]
          exact hv2
      refine ⟨ih1, by rw [ih2, hmv1], ?_, ?_⟩
      · intro v2 hv2
        exact ih3 v2 (hlabmono v2 hv2)
      · intro v2 hv2 hm2
        rcases List.mem_cons.mp hv2 with rfl | hmem
        · apply ih3
          show Function.update s.label_V v2 true v2 = true
          rw [Function.update_apply, if_pos rfl]
        · exact ih4 v2 hmem (by rw [hmv1]; exact hm2)
    · rw [seedRows, if_neg hm]
      obtain ⟨ih1, ih2, ih3, ih4⟩ := ih s h
      refine ⟨ih1, ih2, ih3, ?_⟩
      intro v2 hv2 hm2
      rcases List.mem_cons.mp hv2 with rfl | hmem
      · exact absurd hm2 hm
      · exact ih4 v2 hmem hm2

/-- A phase start (initialize_search then the seeding of all unmatched
rows) establishes the loop invariant. -/
lemma seedPhase_inv {k : ℕ} {s : HState N} (h : PInv k s) (hk : k < N) :
    SInv k (seedPhase s) := by
  have h0 : SeedInv k (initialize_search s) := by
    refine ⟨h.cNN, h.cEven, h.sym, h.feas, h.tight, h.evenD, ?_, fun u => rfl,
      fun v => rfl, ?_, ?_, ?_, ?_⟩
    · have : matchedV (initialize_search s) = matchedV s := rfl
      rw [matchedCard, this]
      exact h.size
    · intro v hv
      exact absurd hv (by simp [initialize_search])
    · intro u x hx
      exact absurd hx (by simp [initialize_search])
    · intro u v hv
      exact absurd hv (by simp [initialize_search])
    · intro u w hw
      exact absurd hw (by simp [initialize_search])
  obtain ⟨h1, h2, h3, h4⟩ := seedRows_inv (List.finRange N) (initialize_search s) h0
  rw [seedPhase]
  refine ⟨h1.cNN, h1.cEven, h1.sym, h1.feas, h1.tight, h1.evenD, ?_, ?_, ?_, ?_,
    ?_, ?_, ?_, ?_, h1.size, hk⟩
  · intro u _ x hx
    exact h1.slE u x hx
  · intro u _ v hv
    exact h1.slF u v hv
  · intro v u hm
    rw [h1.labU u]
    cases hl : (seedRows (List.finRange N) (initialize_search s)).label_V v with
    | false => rfl
    | true =>
      rw [h1.labMate v hl] at hm
      exact absurd hm (by simp)
  · intro v p hp
    rw [h1.par v] at hp
    exact absurd hp (by simp)
  · intro v hv _
    exact h1.labMate v hv
  · refine ⟨fun _ => 0, ?_, ?_, ?_⟩
    · intro v p hp
      rw [h1.par v] at hp
      exact absurd hp (by simp)
    · intro v hv
      apply Finset.card_pos.mpr
      exact ⟨v, by simp [labVset, hv]⟩
    · intro u w _ hw
      have hlw := h1.nh u w hw
      refine ⟨hlw, ?_⟩
      apply Finset.card_pos.mpr
      exact ⟨w, by simp [labVset, hlw]⟩
  · intro v hv
    rw [h2] at hv
    exact h4 v (List.mem_finRange v) hv
  · intro u hu
    rw [h1.labU u] at hu
    exact absurd hu (by simp)

/-! The augmentation: effect on the matching and termination along the
parent chain. -/

@[simp] lemma flip_c (v e : Fin N) (s : HState N) : (flip v e s).c = s.c := rfl

@[simp] lemma flip_alpha (v e : Fin N) (s : HState N) :
    (flip v e s).alpha = s.alpha := rfl

@[simp] lemma flip_beta (v e : Fin N) (s : HState N) :
    (flip v e s).beta = s.beta := rfl

@[simp] lemma flip_parent (v e : Fin N) (s : HState N) :
    (flip v e s).parent = s.parent := rfl

@[simp] lemma flip_label_V (v e : Fin N) (s : HState N) :
    (flip v e s).label_V = s.label_V := rfl

@[simp] lemma flip_label_U (v e : Fin N) (s : HState N) :
    (flip v e s).label_U = s.label_U := rfl

@[simp] lemma flip_nhbor (v e : Fin N) (s : HState N) :
    (flip v e s).nhbor = s.nhbor := rfl

@[simp] lemma flip_slack (v e : Fin N) (s : HState N) :
    (flip v e s).slack = s.slack := rfl

lemma flip_mate_V (v e w : Fin N) (s : HState N) :
    (flip v e s).mate_V w = if w = v then some e else s.mate_V w := by
  rw [flip]
  exact Function.update_apply s.mate_V v (some e) w

lemma flip_mate_U (v e u : Fin N) (s : HState N) :
    (flip v e s).mate_U u = if u = e then some v else s.mate_U u := by
  rw [flip]
  exact Function.update_apply s.mate_U e (some v) u

lemma matchedCard_flip_some (v e a : Fin N) (s : HState N)
    (hm : s.mate_V v = some a) :
    matchedCard (flip v e s) = matchedCard s := by
  have hset : matchedV (flip v e s) = matchedV s := by
    ext w
    simp only [matchedV, Finset.mem_filter, Finset.mem_univ, true_and,
      flip_mate_V]
    by_cases hw : w = v
    · subst hw
      simp [hm]
    · rw [if_neg hw]
  rw [matchedCard, hset]
  rfl

lemma matchedCard_flip_none (v e : Fin N) (s : HState N)
    (hm : s.mate_V v = none) :
    matchedCard (flip v e s) = matchedCard s + 1 := by
  have hset : matchedV (flip v e s) = insert v (matchedV s) := by
    ext w
    simp only [matchedV, Finset.mem_filter, Finset.mem_univ, true_and,
      flip_mate_V, Finset.mem_insert]
    by_cases hw : w = v
    · subst hw
      simp
    · rw [if_neg hw]
      simp [hw]
  have hnot : v ∉ matchedV s := by
    simp [matchedV, hm]
  rw [matchedCard, hset, Finset.card_insert_of_not_mem hnot]
  rfl

/-- Termination and effect of the augment recursion: with fuel above the
rank of the starting row, augment succeeds and produces a symmetric
matching with exactly one more pair, all of whose edges are tight; the
duals and everything but the matching are untouched. -/
lemma augment_spec (rk : Fin N → ℕ) : ∀ (fuel : ℕ) (v e : Fin N) (s : HState N),
    rk v < fuel →
    s.label_V v = true →
    (∀ w u, u ≠ e → (s.mate_V w = some u ↔ s.mate_U u = some w)) →
    (∀ w, s.mate_V w ≠ some e) →
    (∀ w p, s.parent w = some p → rk w ≤ rk v →
      rk p < rk w ∧ s.label_V p = true ∧
        ∃ a, s.mate_V w = some a ∧ s.alpha p + s.beta a = s.c p a) →
    (∀ w, rk w ≤ rk v → s.label_V w = true → s.parent w = none →
      s.mate_V w = none) →
    (∀ w a, s.mate_V w = some a → s.alpha w + s.beta a = s.c w a) →
    s.alpha v + s.beta e = s.c v e →
    ∃ s2, augmentAux fuel v e s = some s2 ∧
      (∀ w u, s2.mate_V w = some u ↔ s2.mate_U u = some w) ∧
      (∀ w a, s2.mate_V w = some a → s.alpha w + s.beta a = s.c w a) ∧
      s2.c = s.c ∧ s2.alpha = s.alpha ∧ s2.beta = s.beta ∧
      matchedCard s2 = matchedCard s + 1 := by
  intro fuel
  induction fuel with
  | zero =>
    intro v e s hrk
    omega
  | succ fuel ih =>
    intro v e s hrk hlab hAS1 hAS2 hP hR hT hE
    cases hpar : s.parent v with
    | none =>
      have hmv : s.mate_V v = none := hR v (le_refl _) hlab hpar
      refine ⟨flip v e s, by rw [augmentAux, hpar], ?_, ?_, rfl, rfl, rfl,
        matchedCard_flip_none v e s hmv⟩
      · intro w u
        rw [flip_mate_V, flip_mate_U]
        by_cases hw : w = v <;> by_cases hu : u = e
        · rw [if_pos hw, if_pos hu, hw, hu]
          simp
        · rw [if_pos hw, if_neg hu]
          constructor
          · intro h2
            injection h2 with h3
            exact absurd h3.symm hu
          · intro h2
            have h3 := (hAS1 w u hu).mpr h2
            rw [hw, hmv] at h3
            exact absurd h3 (by simp)
        · rw [if_neg hw, if_pos hu]
          constructor
          · intro h2
            rw [hu] at h2
            exact absurd h2 (hAS2 w)
          · intro h2
            injection h2 with h3
            exact absurd h3.symm hw
        · rw [if_neg hw, if_neg hu]
          exact hAS1 w u hu
      · intro w a hm
        rw [flip_mate_V] at hm
        by_cases hw : w = v
        · rw [if_pos hw] at hm
          injection hm with h3
          rw [hw, ← h3]
          exact hE
        · rw [if_neg hw] at hm
          exact hT w a hm
    | some p =>
      obtain ⟨hrkp, hlabp, a, hma, htpa⟩ := hP v p hpar (le_refl _)
      have hae : a ≠ e := by
        intro he
        rw [he] at hma
        exact hAS2 v hma
      have hea : e ≠ a := fun h2 => hae h2.symm
      have hred : augmentAux (fuel + 1) v e s = augmentAux fuel p a (flip v e s) := by
        rw [augmentAux, hpar, hma]
      have hvmem : (flip v e s).mate_V v = some e := by
        rw [flip_mate_V, if_pos rfl]
      have hA : ∀ w u, u ≠ a →
          ((flip v e s).mate_V w = some u ↔ (flip v e s).mate_U u = some w) := by
        intro w u hu
        rw [flip_mate_V, flip_mate_U]
        by_cases hw : w = v <;> by_cases hue : u = e
        · rw [if_pos hw, if_pos hue, hw, hue]
          simp
        · rw [if_pos hw, if_neg hue]
          constructor
          · intro h2
            injection h2 with h3
            exact absurd h3.symm hue
          · intro h2
            have h3 := (hAS1 w u hue).mpr h2
            rw [hw, hma] at h3
            injection h3 with h4
            exact absurd h4.symm hu
        · rw [if_neg hw, if_pos hue]
          constructor
          · intro h2
            rw [hue] at h2
            exact absurd h2 (hAS2 w)
          · intro h2
            injection h2 with h3
            exact absurd h3.symm hw
        · rw [if_neg hw, if_neg hue]
          exact hAS1 w u hue
      have hB : ∀ w, (flip v e s).mate_V w ≠ some a := by
        intro w
        rw [flip_mate_V]
        by_cases hw : w = v
        · rw [if_pos hw]
          intro h2
          injection h2 with h3
          exact hea h3
        · rw [if_neg hw]
          intro h2
          have h3 := (hAS1 w a hae).mp h2
          have h4 := (hAS1 v a hae).mp hma
          rw [h3] at h4
          injection h4 with h5
          exact hw h5
      have hC : ∀ w p2, (flip v e s).parent w = some p2 → rk w ≤ rk p →
          rk p2 < rk w ∧ (flip v e s).label_V p2 = true ∧
            ∃ a2, (flip v e s).mate_V w = some a2 ∧
              (flip v e s).alpha p2 + (flip v e s).beta a2 = (flip v e s).c p2 a2 := by
        intro w p2 hp2 hle
        have hwv : w ≠ v := by
          intro he
          rw [he] at hle
          omega
        rw [flip_parent] at hp2
        obtain ⟨q1, q2, a2, q3, q4⟩ := hP w p2 hp2 (by omega)
        refine ⟨q1, q2, a2, ?_, q4⟩
        rw [flip_mate_V, if_neg hwv]
        exact q3
      have hD : ∀ w, rk w ≤ rk p → (flip v e s).label_V w = true →
          (flip v e s).parent w = none → (flip v e s).mate_V w = none := by
        intro w hle hlw hpw
        have hwv : w ≠ v := by
          intro he
          rw [he, flip_parent, hpar] at hpw
          exact absurd hpw (by simp)
        rw [flip_mate_V, if_neg hwv]
        exact hR w (by omega) hlw (by rw [← flip_parent v e s]; exact hpw)
      have hT2 : ∀ w a2, (flip v e s).mate_V w = some a2 →
          (flip v e s).alpha w + (flip v e s).beta a2 = (flip v e s).c w a2 := by
        intro w a2 hm
        rw [flip_mate_V] at hm
        by_cases hw : w = v
        · rw [if_pos hw] at hm
          injection hm with h3
          show s.alpha w + s.beta a2 = s.c w a2
          rw [hw, ← h3]
          exact hE
        · rw [if_neg hw] at hm
          exact hT w a2 hm
      have hE2 : (flip v e s).alpha p + (flip v e s).beta a = (flip v e s).c p a :=
        htpa
      obtain ⟨s2, heq, hsym2, htight2, hc2, ha2, hb2, hcard2⟩ :=
        ih p a (flip v e s) (by omega) hlabp hA hB hC hD hT2 hE2
      refine ⟨s2, by rw [hred]; exact heq, hsym2, ?_, hc2, ha2, hb2, ?_⟩
      · intro w a2 hm
        exact htight2 w a2 hm
      · rw [matchedCard_flip_some v e a s hma] at hcard2
        exact hcard2

/-! Phases and the full run. -/

/-- From the phase-end facts, the augmentation with fuel N succeeds and
restores the phase invariant with one more matched pair. -/
lemma found_augment {k : ℕ} {u : Fin N} {s2 : HState N} (hF : Found k u s2) :
    ∃ r s3, s2.nhbor u = some r ∧ augmentAux N r u s2 = some s3 ∧
      PInv (k + 1) s3 := by
  obtain ⟨r, hr1, hr2, hr3⟩ := hF.nh
  obtain ⟨rk, hrk1, hrk2⟩ := hF.rankB
  have hAS1 : ∀ w u2, u2 ≠ u → (s2.mate_V w = some u2 ↔ s2.mate_U u2 = some w) :=
    fun w u2 _ => hF.sym w u2
  have hAS2 : ∀ w, s2.mate_V w ≠ some u := by
    intro w hw
    have h2 := (hF.sym w u).mp hw
    rw [hF.uUnm] at h2
    exact absurd h2 (by simp)
  have hP : ∀ w p, s2.parent w = some p → rk w ≤ rk r →
      rk p < rk w ∧ s2.label_V p = true ∧
        ∃ a, s2.mate_V w = some a ∧ s2.alpha p + s2.beta a = s2.c p a := by
    intro w p hp _
    obtain ⟨q1, q2, a, q3, q4⟩ := hF.parP w p hp
    exact ⟨hrk1 w p hp, q2, a, q3, q4⟩
  have hR : ∀ w, rk w ≤ rk r → s2.label_V w = true → s2.parent w = none →
      s2.mate_V w = none := fun w _ h1 h2 => hF.rootR w h1 h2
  obtain ⟨s3, haug, hsym3, htight3, hc3, ha3, hb3, hcard3⟩ :=
    augment_spec rk N r u s2 (hrk2 r hr2) hr2 hAS1 hAS2 hP hR hF.tight hr3
  refine ⟨r, s3, hr1, haug, ?_⟩
  refine ⟨?_, ?_, hsym3, ?_, ?_, ?_, ?_⟩
  · intro v u2
    rw [hc3]
    exact hF.cNN v u2
  · intro v u2
    rw [hc3]
    exact hF.cEven v u2
  · intro v u2
    rw [ha3, hb3, hc3]
    exact hF.feas v u2
  · intro v u2 hm
    rw [ha3, hb3, hc3]
    exact htight3 v u2 hm
  · intro v u2
    rw [ha3, hb3]
    exact hF.evenD v u2
  · rw [hcard3, hF.size]

/-- One complete phase: from the phase invariant with k matched pairs and
k < N, the phase body succeeds and yields the phase invariant with k + 1
matched pairs. -/
lemma phaseBody_spec {k : ℕ} {s : HState N} (h : PInv k s) (hk : k < N) :
    ∃ s2, phaseBody s = some s2 ∧ PInv (k + 1) s2 := by
  have hS := seedPhase_inv h hk
  have hcm : colMeasure (seedPhase s) < N + 1 :=
    lt_of_le_of_lt (colMeasure_le hS) (by omega)
  obtain ⟨u, s2, hloop, hF⟩ := searchLoop_succeeds (N + 1) (seedPhase s) hS hcm
  obtain ⟨r, s3, hr1, haug, hP⟩ := found_augment hF
  refine ⟨s3, ?_, hP⟩
  rw [phaseBody, hloop]
  show (match s2.nhbor u with
    | none => none
    | some r => augmentAux N r u s2) = some s3
  rw [hr1]
  exact haug

/-- Running j further phases from the phase invariant. -/
lemma runPhases_spec : ∀ (j k : ℕ) (s : HState N), PInv k s → k + j ≤ N →
    ∃ s2, runPhases j s = some s2 ∧ PInv (k + j) s2 := by
  intro j
  induction j with
  | zero =>
    intro k s h _
    exact ⟨s, rfl, h⟩
  | succ j ih =>
    intro k s h hle
    obtain ⟨s2, hpb, h2⟩ := phaseBody_spec h (by omega)
    obtain ⟨s3, hrun, h3⟩ := ih (k + 1) s2 h2 (by omega)
    refine ⟨s3, ?_, ?_⟩
    · rw [runPhases, hpb]
      exact hrun
    · have heq : k + 1 + j = k + (j + 1) := by omega
      rw [← heq]
      exact h3

/-- The state after read_input and initialize_alpha_beta satisfies the
phase invariant with an empty matching. -/
lemma initState_PInv (c0 : Cost N) (hnn : ∀ v u, 0 ≤ c0 v u) :
    PInv 0 (initState c0) := by
  refine ⟨?_, ?_, ?_, ?_, ?_, ?_, ?_⟩
  · intro v u
    show (0 : Int) ≤ 2 * c0 v u
    have := hnn v u
    omega
  · intro v u
    exact even_two_mul (c0 v u)
  · intro v u
    show (none : Option (Fin N)) = some u ↔ (none : Option (Fin N)) = some v
    simp
  · intro v u
    show (0 : Int) + minCol (scaleC c0) u ≤ scaleC c0 v u
    rw [zero_add]
    exact Finset.inf'_le _ (Finset.mem_univ v)
  · intro v u hm
    exact absurd hm (by simp [initState])
  · intro v u
    show Even ((0 : Int) + minCol (scaleC c0) u)
    rw [zero_add]
    obtain ⟨v0, -, hv0⟩ := Finset.exists_mem_eq_inf' ⟨u, Finset.mem_univ u⟩
      (fun v2 => scaleC c0 v2 u)
    rw [minCol, hv0]
    exact even_two_mul (c0 v0 u)
  · show (Finset.univ.filter fun v => (initState c0).mate_V v ≠ none).card = 0
    simp [initState]

/-! The cost matrix never changes after read time. -/

lemma updAB_c (s : HState N) : (update_alpha_beta s).2.c = s.c := by
  rw [update_alpha_beta]
  cases minSlack s with
  | none => rfl
  | some θ =>
    show (if 0 < θ then (θ / 2, dualShift (θ / 2) s) else (θ, s)).2.c = s.c
    by_cases hθ : 0 < θ
    · rw [if_pos hθ]
      rfl
    · rw [if_neg hθ]

lemma updAB1_c (s : HState N) : (updAB1 s).2.c = s.c := by
  rw [updAB1]
  cases minSlack s with
  | none => rfl
  | some θ =>
    by_cases hθ : 0 < θ / 2
    · show (if 0 < θ / 2 then dualShift (θ / 2) s else s).c = s.c
      rw [if_pos hθ]
      rfl
    · show (if 0 < θ / 2 then dualShift (θ / 2) s else s).c = s.c
      rw [if_neg hθ]

lemma promote_c (l : List (Fin N)) : ∀ s : HState N, (promote l s).c = s.c := by
  induction l with
  | nil => intro s; rfl
  | cons u l ih =>
    intro s
    rw [promote]
    cases s.mate_U u with
    | none => exact ih s
    | some r => exact ih (promoteStep u r s)

lemma searchStep_c_inl (s s1 : HState N) (h : searchStep s = Sum.inl s1) :
    s1.c = s.c := by
  rcases hscan : scanCols (update_alpha_beta s).1 (List.finRange N)
      (update_alpha_beta s).2 [] with ⟨s2, adm2, fo⟩
  have hpres := scanCols_preserve (update_alpha_beta s).1 (List.finRange N)
    (update_alpha_beta s).2 []
  rw [hscan] at hpres
  rw [searchStep, hscan] at h
  cases fo with
  | some u => exact absurd h (by simp)
  | none =>
    have h2 : promote adm2 s2 = s1 := by
      injection h with h3
    rw [← h2, promote_c, hpres.1, updAB_c]

lemma searchStep_c_inr (s : HState N) (u : Fin N) (s2 : HState N)
    (h : searchStep s = Sum.inr (u, s2)) : s2.c = s.c := by
  rcases hscan : scanCols (update_alpha_beta s).1 (List.finRange N)
      (update_alpha_beta s).2 [] with ⟨s3, adm2, fo⟩
  have hpres := scanCols_preserve (update_alpha_beta s).1 (List.finRange N)
    (update_alpha_beta s).2 []
  rw [hscan] at hpres
  rw [searchStep, hscan] at h
  cases fo with
  | some u2 =>
    have h2 : s3 = s2 := by
      injection h with h3
      injection h3 with h4 h5
    rw [← h2, hpres.1, updAB_c]
  | none => exact absurd h (by simp)

lemma searchLoop_c : ∀ (fuel : ℕ) (s : HState N) (u : Fin N) (s2 : HState N),
    searchLoop fuel s = some (u, s2) → s2.c = s.c := by
  intro fuel
  induction fuel with
  | zero =>
    intro s u s2 h
    exact absurd h (by rw [searchLoop]; simp)
  | succ fuel ih =>
    intro s u s2 h
    rw [searchLoop] at h
    cases hstep : searchStep s with
    | inl s1 =>
      rw [hstep] at h
      rw [ih s1 u s2 h, searchStep_c_inl s s1 hstep]
    | inr r =>
      rw [hstep] at h
      injection h with h2
      rw [h2] at hstep
      exact searchStep_c_inr s u s2 hstep

lemma augmentAux_c : ∀ (fuel : ℕ) (v e : Fin N) (s s2 : HState N),
    augmentAux fuel v e s = some s2 → s2.c = s.c := by
  intro fuel
  induction fuel with
  | zero =>
    intro v e s s2 h
    exact absurd h (by rw [augmentAux]; simp)
  | succ fuel ih =>
    intro v e s s2 h
    rw [augmentAux] at h
    cases hp : s.parent v with
    | none =>
      rw [hp] at h
      injection h with h2
      rw [← h2]
      rfl
    | some p =>
      rw [hp] at h
      cases hm : s.mate_V v with
      | none => rw [hm] at h; exact absurd h (by simp)
      | some a =>
        rw [hm] at h
        rw [ih p a (flip v e s) s2 h]
        rfl

lemma seedRows_c (l : List (Fin N)) : ∀ s : HState N, (seedRows l s).c = s.c := by
  induction l with
  | nil => intro s; rfl
  | cons v l ih =>
    intro s
    rw [seedRows]
    by_cases hm : s.mate_V v = none
    · rw [if_pos hm, ih]
      rfl
    · rw [if_neg hm, ih]

lemma phaseBody_c (s s2 : HState N) (h : phaseBody s = some s2) : s2.c = s.c := by
  rw [phaseBody] at h
  cases hloop : searchLoop (N + 1) (seedPhase s) with
  | none => rw [hloop] at h; exact absurd h (by simp)
  | some r =>
    rcases r with ⟨u, s3⟩
    rw [hloop] at h
    have h4 : (match s3.nhbor u with
      | none => none
      | some r => augmentAux N r u s3) = some s2 := h
    cases hnb : s3.nhbor u with
    | none =>
      rw [hnb] at h4
      exact absurd h4 (by simp)
    | some w =>
      rw [hnb] at h4
      have h2 := augmentAux_c N w u s3 s2 h4
      have h3 := searchLoop_c (N + 1) (seedPhase s) u s3 hloop
      rw [h2, h3, seedPhase, seedRows_c]
      rfl

lemma runPhases_c : ∀ (j : ℕ) (s s2 : HState N), runPhases j s = some s2 →
    s2.c = s.c := by
  intro j
  induction j with
  | zero =>
    intro s s2 h
    injection h with h2
    rw [h2]
  | succ j ih =>
    intro s s2 h
    rw [runPhases] at h
    cases hpb : phaseBody s with
    | none => rw [hpb] at h; exact absurd h (by simp)
    | some s3 =>
      rw [hpb] at h
      rw [ih s3 s2 h, phaseBody_c s s3 hpb]

/-! The final state: a perfect symmetric matching whose cost the duals
certify optimal. -/

lemma hungarianRun_PInv (c0 : Cost N) (hnn : ∀ v u, 0 ≤ c0 v u) :
    ∃ s, hungarianRun c0 = some s ∧ PInv N s ∧ s.c = scaleC c0 := by
  obtain ⟨s, h1, h2⟩ := runPhases_spec N 0 (initState c0) (initState_PInv c0 hnn)
    (by omega)
  rw [zero_add] at h2
  refine ⟨s, h1, h2, ?_⟩
  rw [runPhases_c N (initState c0) s h1]
  exact rfl

lemma PInvN_perfect {s : HState N} (h : PInv N s) : ∀ v, (s.mate_V v).isSome := by
  have hcard : matchedV s = Finset.univ := by
    apply Finset.eq_univ_of_card
    have := h.size
    rw [matchedCard] at this
    rw [this, Fintype.card_fin]
  intro v
  have hv : v ∈ matchedV s := by
    rw [hcard]
    exact Finset.mem_univ v
  simp only [matchedV, Finset.mem_filter, Finset.mem_univ, true_and] at hv
  exact Option.ne_none_iff_isSome.mp hv

/-- The final matching, as a permutation of the index set. -/
lemma PInvN_perm {s : HState N} (h : PInv N s) :
    ∃ σ : Equiv.Perm (Fin N), ∀ v, s.mate_V v = some (σ v) := by
  have hperf := PInvN_perfect h
  have hinj : Function.Injective (fun v => (s.mate_V v).get (hperf v)) := by
    intro v1 v2 he
    simp only at he
    have h1 : s.mate_V v1 = some ((s.mate_V v1).get (hperf v1)) :=
      (Option.some_get (hperf v1)).symm
    have h2 : s.mate_V v2 = some ((s.mate_V v2).get (hperf v2)) :=
      (Option.some_get (hperf v2)).symm
    have h3 := (h.sym v1 _).mp h1
    have h4 := (h.sym v2 _).mp h2
    rw [he] at h3
    rw [h3] at h4
    exact Option.some.inj h4
  refine ⟨Equiv.ofBijective _ (Finite.injective_iff_bijective.mp hinj), ?_⟩
  intro v
  show s.mate_V v = some ((s.mate_V v).get (hperf v))
  exact (Option.some_get (hperf v)).symm

/-- Strong duality at the final state: the dual sum equals twice the cost
of the found assignment and is at most twice the cost of any assignment. -/
lemma final_cost_eq {s : HState N} (h : PInv N s) (c0 : Cost N)
    (hc : s.c = scaleC c0) :
    ∃ σ : Equiv.Perm (Fin N), (∀ v, s.mate_V v = some (σ v)) ∧
      (∑ i, (s.alpha i + s.beta i)) = 2 * assignCost c0 σ ∧
      (∀ τ : Equiv.Perm (Fin N),
        (∑ i, (s.alpha i + s.beta i)) ≤ 2 * assignCost c0 τ) := by
  obtain ⟨σ, hσ⟩ := PInvN_perm h
  have hsplit : ∀ τ : Equiv.Perm (Fin N),
      (∑ i, (s.alpha i + s.beta i)) = ∑ v, (s.alpha v + s.beta (τ v)) := by
    intro τ
    rw [Finset.sum_add_distrib, Finset.sum_add_distrib]
    congr 1
    exact (Equiv.sum_comp τ s.beta).symm
  refine ⟨σ, hσ, ?_, ?_⟩
  · rw [hsplit σ]
    have h2 : ∀ v, s.alpha v + s.beta (σ v) = 2 * c0 v (σ v) := by
      intro v
      have h3 := h.tight v (σ v) (hσ v)
      rw [hc] at h3
      exact h3
    rw [Finset.sum_congr rfl (fun v _ => h2 v), assignCost, Finset.mul_sum]
  · intro τ
    rw [hsplit τ, assignCost, Finset.mul_sum]
    apply Finset.sum_le_sum
    intro v _
    have h3 := h.feas v (τ v)
    rw [hc] at h3
    exact h3

/-- The cost-mode output of the final state is the optimal assignment
cost. -/
lemma costOut_final {s : HState N} (h : PInv N s) (c0 : Cost N)
    (hc : s.c = scaleC c0) : costOut s = minAssignCost c0 := by
  obtain ⟨σ, hσ, heq, hle⟩ := final_cost_eq h c0 hc
  rw [costOut, heq]
  have h2 : 2 * assignCost c0 σ / 2 = assignCost c0 σ := by omega
  rw [h2, minAssignCost]
  apply le_antisymm
  · apply Finset.le_inf'
    intro τ _
    have h3 := hle τ
    omega
  · exact Finset.inf'_le _ (Finset.mem_univ σ)

lemma costOutput_eq (c0 : Cost N) (hnn : ∀ v u, 0 ≤ c0 v u) :
    costOutput c0 = some (minAssignCost c0) := by
  obtain ⟨s, h1, h2, h3⟩ := hungarianRun_PInv c0 hnn
  rw [costOutput, h1]
  show some (costOut s) = some (minAssignCost c0)
  rw [costOut_final h2 c0 h3]

/-! Equivalence of the three source formulations. -/

lemma searchLoop_mono : ∀ (fuel fuel2 : ℕ) (s : HState N) (r : Fin N × HState N),
    fuel ≤ fuel2 → searchLoop fuel s = some r → searchLoop fuel2 s = some r := by
  intro fuel
  induction fuel with
  | zero =>
    intro fuel2 s r _ h
    exact absurd h (by rw [searchLoop]; simp)
  | succ fuel ih =>
    intro fuel2 s r hle h
    obtain ⟨f2, rfl⟩ : ∃ f2, fuel2 = f2 + 1 := ⟨fuel2 - 1, by omega⟩
    rw [searchLoop] at h
    rw [searchLoop]
    cases hstep : searchStep s with
    | inl s1 =>
      rw [hstep] at h
      exact ih f2 s1 r (by omega) h
    | inr r2 =>
      rw [hstep] at h
      exact h

/-- On states where theta is non-negative and even (every reachable state),
the dual update of part_001 computes exactly the dual update of
hungarian.cpp. -/
lemma updAB1_eq {k : ℕ} {s : HState N} (h : SInv k s) :
    updAB1 s = update_alpha_beta s := by
  obtain ⟨θ, hms, hnn, hev, -⟩ := sInv_minSlack h
  rw [updAB1, update_alpha_beta, hms]
  show (θ / 2, if 0 < θ / 2 then dualShift (θ / 2) s else s) =
    (if 0 < θ then (θ / 2, dualShift (θ / 2) s) else (θ, s))
  by_cases hpos : 0 < θ
  · have h2 : 0 < θ / 2 := by
      obtain ⟨m, rfl⟩ := hev
      omega
    rw [if_pos hpos, if_pos h2]
  · have hz : θ = 0 := by omega
    subst hz
    norm_num

/-- search of part_002 is literally the loop of hungarian.cpp followed by
the augment call of its driver. -/
lemma search2_eq : ∀ (fuel : ℕ) (s : HState N), search2 fuel s =
    match searchLoop fuel s with
    | none => none
    | some (u, s2) =>
      match s2.nhbor u with
      | none => none
      | some w => augmentAux N w u s2 := by
  intro fuel
  induction fuel with
  | zero =>
    intro s
    rfl
  | succ fuel ih =>
    intro s
    rw [search2, searchLoop]
    cases hstep : searchStep s with
    | inl s1 => exact ih s1
    | inr r =>
      rcases r with ⟨u, s2⟩
      rfl

/-- One unfolding of search of part_001 on an invariant state, phrased
through searchStep of hungarian.cpp: the only difference between the two
dual updates vanishes on reachable states. -/
lemma search1_succ {k : ℕ} {s : HState N} (hS : SInv k s) (fuel : ℕ) :
    search1 (fuel + 1) s =
      match searchStep s with
      | Sum.inr r =>
        match r.2.nhbor r.1 with
        | none => none
        | some w => augmentAux N w r.1 r.2
      | Sum.inl s1 => search1 fuel s1 := by
  have hup := updAB1_eq hS
  rw [search1, hup, searchStep]
  cases hfo : (scanCols (update_alpha_beta s).1 (List.finRange N)
      (update_alpha_beta s).2 []).2.2 with
  | some u3 => rfl
  | none => rfl

/-- On invariant states, search of part_001 follows the while loop of
hungarian.cpp step for step and ends with the same augmentation as the
hungarian.cpp driver. -/
lemma search1_eq_loop {k : ℕ} : ∀ (fuel : ℕ) (s : HState N), SInv k s →
    ∀ u s2, searchLoop fuel s = some (u, s2) →
    search1 fuel s =
      (match s2.nhbor u with
      | none => none
      | some w => augmentAux N w u s2) := by
  intro fuel
  induction fuel with
  | zero =>
    intro s _ u s2 h
    exact absurd h (by rw [searchLoop]; simp)
  | succ fuel ih =>
    intro s hS u s2 h
    rw [searchLoop] at h
    rw [search1_succ hS fuel]
    rcases searchStep_spec hS with ⟨s3, hst, hinv, -⟩ | ⟨u2, s4, hst, -⟩
    · rw [hst] at h ⊢
      exact ih s3 hinv u s2 h
    · rw [hst] at h ⊢
      have h3 : some (u2, s4) = some (u, s2) := h
      have h2 : (u2, s4) = (u, s2) := by
        injection h3
      injection h2 with h4 h5
      subst h4
      subst h5
      rfl

/-- The full picture of one phase, at the exact for-loop fuel N of
part_001: the while loop returns within N iterations, nhbor of the exposed
column is set, augment with recursion depth at most N succeeds, the
matching grows by one pair, and hungarian.cpp and part_001 perform the
same phase. -/
lemma phase_at_N {k : ℕ} {s : HState N} (h : PInv k s) (hk : k < N) :
    ∃ u s2 r s3, searchLoop N (seedPhase s) = some (u, s2) ∧
      s2.mate_U u = none ∧
      s2.nhbor u = some r ∧ augmentAux N r u s2 = some s3 ∧
      PInv (k + 1) s3 ∧ phaseBody s = some s3 ∧ phaseBody1 s = some s3 := by
  have hS := seedPhase_inv h hk
  have hcm : colMeasure (seedPhase s) < N := lt_of_le_of_lt (colMeasure_le hS) hk
  obtain ⟨u, s2, hloop, hF⟩ := searchLoop_succeeds N (seedPhase s) hS hcm
  obtain ⟨r, s3, hr1, haug, hP⟩ := found_augment hF
  refine ⟨u, s2, r, s3, hloop, hF.uUnm, hr1, haug, hP, ?_, ?_⟩
  · rw [phaseBody, searchLoop_mono N (N + 1) (seedPhase s) (u, s2) (by omega) hloop]
    show (match s2.nhbor u with
      | none => none
      | some r => augmentAux N r u s2) = some s3
    rw [hr1]
    exact haug
  · rw [phaseBody1, search1_eq_loop N (seedPhase s) hS u s2 hloop, hr1]
    exact haug

/-- part_002 performs exactly the phases of hungarian.cpp. -/
lemma phaseBody2_eq (s : HState N) : phaseBody2 s = phaseBody s := by
  rw [phaseBody2, search2_eq, phaseBody]

lemma runPhases2_eq : ∀ (j : ℕ) (s : HState N), runPhases2 j s = runPhases j s := by
  intro j
  induction j with
  | zero =>
    intro s
    rfl
  | succ j ih =>
    intro s
    rw [runPhases2, runPhases, phaseBody2_eq]
    cases phaseBody s with
    | none => rfl
    | some s2 => exact ih s2

/-- The two cost outputs of part_002 and hungarian.cpp agree on every
input. -/
lemma costOutput2_eq (c0 : Cost N) : costOutput2 c0 = costOutput c0 := by
  rw [costOutput2, costOutput, hungarianRun2, hungarianRun, phasesRun,
    runPhases2_eq]

/-- part_001 runs the same phases as hungarian.cpp on invariant states. -/
lemma runPhases1_eq : ∀ (j k : ℕ) (s : HState N), PInv k s → k + j ≤ N →
    runPhases1 j s = runPhases j s := by
  intro j
  induction j with
  | zero =>
    intro k s _ _
    rfl
  | succ j ih =>
    intro k s h hle
    obtain ⟨u, s2, r, s3, -, -, -, -, hP, hpb, hpb1⟩ := phase_at_N h (by omega)
    rw [runPhases1, runPhases, hpb, hpb1]
    exact ih (k + 1) s3 hP (by omega)

lemma hungarianRun1_eq (c0 : Cost N) (hnn : ∀ v u, 0 ≤ c0 v u) :
    hungarianRun1 c0 = hungarianRun c0 := by
  rw [hungarianRun1, hungarianRun, phasesRun]
  exact runPhases1_eq N 0 (initState c0) (initState_PInv c0 hnn) (by omega)

/-- The matched-edge cost formula of part_001 agrees with the dual-sum
formula of hungarian.cpp on the final state, and hence the two outputs
agree. -/
lemma costOutput1_eq (c0 : Cost N) (hnn : ∀ v u, 0 ≤ c0 v u) :
    costOutput1 c0 = costOutput c0 := by
  obtain ⟨s, h1, h2, h3⟩ := hungarianRun_PInv c0 hnn
  rw [costOutput1, hungarianRun1_eq c0 hnn, h1, costOutput, h1]
  show matchedCost s = some (costOut s)
  obtain ⟨σ, hσ, heq, -⟩ := final_cost_eq h2 c0 h3
  have hperf := PInvN_perfect h2
  rw [matchedCost, dif_pos hperf]
  have hget : ∀ v, (s.mate_V v).get (hperf v) = σ v := by
    intro v
    have h4 := hσ v
    simp [h4]
  have hsum : (∑ v, s.c v ((s.mate_V v).get (hperf v))) =
      ∑ i, (s.alpha i + s.beta i) := by
    rw [Finset.sum_congr rfl (fun v _ => by rw [hget v]), heq]
    rw [h3]
    show (∑ v, 2 * c0 v (σ v)) = 2 * assignCost c0 σ
    rw [assignCost, Finset.mul_sum]
  rw [hsum]
  rfl

/-! Reachable states at the head of each iteration of the search loop. -/

lemma stepN_SInv {k : ℕ} : ∀ (j : ℕ) (s s2 : HState N), SInv k s →
    stepN j s = some s2 → SInv k s2 := by
  intro j
  induction j with
  | zero =>
    intro s s2 h h2
    injection h2 with h3
    rw [← h3]
    exact h
  | succ j ih =>
    intro s s2 h h2
    rw [stepN] at h2
    rcases searchStep_spec h with ⟨s3, hst, hinv, -⟩ | ⟨u, s4, hst, -⟩
    · rw [hst] at h2
      exact ih s3 s2 hinv h2
    · rw [hst] at h2
      exact absurd h2 (by simp)

lemma loopState_SInv (c0 : Cost N) (hnn : ∀ v u, 0 ≤ c0 v u) (k j : ℕ)
    (hk : k < N) (s : HState N) (h : loopState c0 k j = some s) : SInv k s := by
  rw [loopState] at h
  cases hrun : phasesRun c0 k with
  | none =>
    rw [hrun] at h
    exact absurd h (by simp)
  | some s1 =>
    rw [hrun] at h
    obtain ⟨s1h, hr, hP⟩ := runPhases_spec k 0 (initState c0)
      (initState_PInv c0 hnn) (by omega)
    rw [zero_add] at hP
    have he : s1h = s1 := by
      rw [phasesRun] at hrun
      rw [hrun] at hr
      injection hr with h4
      exact h4.symm
    rw [he] at hP
    exact stepN_SInv j (seedPhase s1) s (seedPhase_inv hP hk) h

lemma stepN_c : ∀ (j : ℕ) (s s2 : HState N), stepN j s = some s2 → s2.c = s.c := by
  intro j
  induction j with
  | zero =>
    intro s s2 h
    injection h with h2
    rw [← h2]
  | succ j ih =>
    intro s s2 h
    rw [stepN] at h
    cases hstep : searchStep s with
    | inl s1 =>
      rw [hstep] at h
      rw [ih s1 s2 h, searchStep_c_inl s s1 hstep]
    | inr r =>
      rw [hstep] at h
      exact absurd h (by simp)

lemma seedPhase_c (s : HState N) : (seedPhase s).c = s.c := by
  rw [seedPhase, seedRows_c]
  rfl

lemma loopState_c (c0 : Cost N) (k j : ℕ) (s : HState N)
    (h : loopState c0 k j = some s) : s.c = scaleC c0 := by
  rw [loopState] at h
  cases hrun : phasesRun c0 k with
  | none =>
    rw [hrun] at h
    exact absurd h (by simp)
  | some s1 =>
    rw [hrun] at h
    rw [stepN_c j (seedPhase s1) s h, seedPhase_c]
    rw [phasesRun] at hrun
    rw [runPhases_c k (initState c0) s1 hrun]
    rfl

/-- The state after k complete phases, with its invariant and unchanged
scaled costs. -/
lemma phasesRun_spec (c0 : Cost N) (hnn : ∀ v u, 0 ≤ c0 v u) (k : ℕ)
    (hk : k ≤ N) : ∃ s, phasesRun c0 k = some s ∧ PInv k s ∧ s.c = scaleC c0 := by
  obtain ⟨s, h1, h2⟩ := runPhases_spec k 0 (initState c0) (initState_PInv c0 hnn)
    (by omega)
  rw [zero_add] at h2
  refine ⟨s, h1, h2, ?_⟩
  rw [runPhases_c k (initState c0) s h1]
  rfl

/-! The claims. -/

/-- C1: for every N and every N x N matrix of non-negative integer costs,
after the driver runs its N phases the cost reported in cost mode equals
the minimum over all bijections sigma of the sum of c[v][sigma(v)], in
unscaled cost units. -/
theorem C1_optimal_cost {N : ℕ} (c0 : Cost N) (hnn : ∀ v u, 0 ≤ c0 v u) :
    costOutput c0 = some (minAssignCost c0) :=
  costOutput_eq c0 hnn

/-- C2: after the driver completes, the matching is a bijection between
rows and columns: mate_V is total and injective, mate_U is total and
injective, and the two directions are symmetric. -/
theorem C2_matching_bijection {N : ℕ} (c0 : Cost N) (hnn : ∀ v u, 0 ≤ c0 v u) :
    ∃ s, hungarianRun c0 = some s ∧
      (∀ v, ∃ u, s.mate_V v = some u) ∧
      (∀ v1 v2 u, s.mate_V v1 = some u → s.mate_V v2 = some u → v1 = v2) ∧
      (∀ u, ∃ v, s.mate_U u = some v) ∧
      (∀ u1 u2 v, s.mate_U u1 = some v → s.mate_U u2 = some v → u1 = u2) ∧
      (∀ v u, s.mate_V v = some u ↔ s.mate_U u = some v) := by
  obtain ⟨s, h1, h2, -⟩ := hungarianRun_PInv c0 hnn
  obtain ⟨σ, hσ⟩ := PInvN_perm h2
  refine ⟨s, h1, ?_, ?_, ?_, ?_, h2.sym⟩
  · intro v
    exact ⟨σ v, hσ v⟩
  · intro v1 v2 u hm1 hm2
    have e1 := (h2.sym v1 u).mp hm1
    have e2 := (h2.sym v2 u).mp hm2
    rw [e1] at e2
    exact Option.some.inj e2
  · intro u
    refine ⟨σ.symm u, ?_⟩
    have h3 := hσ (σ.symm u)
    rw [Equiv.apply_symm_apply] at h3
    exact (h2.sym (σ.symm u) u).mp h3
  · intro u1 u2 v hm1 hm2
    have e1 := (h2.sym v u1).mpr hm1
    have e2 := (h2.sym v u2).mpr hm2
    rw [e1] at e2
    exact Option.some.inj e2

/-- C3: the three source formulations are behaviorally equivalent: on
every matrix of non-negative integer costs the three cost outputs agree
(and equal the optimum), although part_001 computes its output from the
matched edges while the other two compute it from the dual sums. -/
theorem C3_variants_agree {N : ℕ} (c0 : Cost N) (hnn : ∀ v u, 0 ≤ c0 v u) :
    costOutput1 c0 = costOutput c0 ∧ costOutput2 c0 = costOutput c0 ∧
      costOutput c0 = some (minAssignCost c0) :=
  ⟨costOutput1_eq c0 hnn, costOutput2_eq c0, costOutput_eq c0 hnn⟩

/-- C4: dual feasibility is an invariant: alpha[v] + beta[u] <= c[v][u]
holds initially (alpha zero, beta the column minima), at the end of every
phase, and at the head of every iteration of every search loop, both in
the doubled internal scale and against twice the unscaled costs. -/
theorem C4_dual_feasible {N : ℕ} (c0 : Cost N) (hnn : ∀ v u, 0 ≤ c0 v u) :
    ((∀ v, (initState c0).alpha v = 0) ∧
      (∀ u, (initState c0).beta u = minCol (scaleC c0) u)) ∧
    (∀ k, k ≤ N → ∃ s, phasesRun c0 k = some s ∧ s.c = scaleC c0 ∧
      (∀ v u, s.alpha v + s.beta u ≤ s.c v u) ∧
      (∀ v u, s.alpha v + s.beta u ≤ 2 * c0 v u)) ∧
    (∀ k j s, k < N → loopState c0 k j = some s →
      ∀ v u, s.alpha v + s.beta u ≤ 2 * c0 v u) := by
  refine ⟨⟨fun v => rfl, fun u => rfl⟩, ?_, ?_⟩
  · intro k hk
    obtain ⟨s, h1, h2, h3⟩ := phasesRun_spec c0 hnn k hk
    refine ⟨s, h1, h3, h2.feas, ?_⟩
    intro v u
    have h4 := h2.feas v u
    rw [h3] at h4
    exact h4
  · intro k j s hk h
    have hS := loopState_SInv c0 hnn k j hk s h
    have hc := loopState_c c0 k j s h
    intro v u
    have h4 := hS.feas v u
    rw [hc] at h4
    exact h4

/-- C5: tightness on matched edges is an invariant: at the end of every
phase, every matched pair satisfies alpha[v] + beta[mate_V[v]] =
c[v][mate_V[v]], in the scaled units and equivalently against twice the
unscaled costs. -/
theorem C5_matched_edges_tight {N : ℕ} (c0 : Cost N)
    (hnn : ∀ v u, 0 ≤ c0 v u) :
    ∀ k, k ≤ N → ∃ s, phasesRun c0 k = some s ∧
      (∀ v u, s.mate_V v = some u → s.alpha v + s.beta u = s.c v u) ∧
      (∀ v u, s.mate_V v = some u → s.alpha v + s.beta u = 2 * c0 v u) := by
  intro k hk
  obtain ⟨s, h1, h2, h3⟩ := phasesRun_spec c0 hnn k hk
  refine ⟨s, h1, h2.tight, ?_⟩
  intro v u hm
  have h4 := h2.tight v u hm
  rw [h3] at h4
  exact h4

/-- C6: because the input costs are doubled at read time, at every
reachable loop state all dual sums are even, all scaled costs are even,
and whenever theta is finite and positive it is even, so the division by
two is exact: twice the value returned by update_alpha_beta (the amount by
which the scan then decrements slack, times two) is exactly theta. -/
theorem C6_theta_even_exact {N : ℕ} (c0 : Cost N) (hnn : ∀ v u, 0 ≤ c0 v u) :
    ∀ k j s, k < N → loopState c0 k j = some s →
      (∀ v u, Even (s.alpha v + s.beta u)) ∧
      (∀ v u, Even (s.c v u)) ∧
      (∀ θ, minSlack s = some θ → 0 < θ →
        Even θ ∧ 2 * (update_alpha_beta s).1 = θ) := by
  intro k j s hk h
  have hS := loopState_SInv c0 hnn k j hk s h
  refine ⟨hS.evenD, hS.cEven, ?_⟩
  intro θ hms hpos
  obtain ⟨θ2, hms2, hnn2, hev2, h2t2, -⟩ := updAB_char hS
  rw [hms] at hms2
  injection hms2 with h3
  rw [h3]
  exact ⟨hev2, h2t2⟩

/-- C7: in every phase the search returns an unmatched admissible column
within at most N loop iterations (the while(true) loop of hungarian.cpp
terminates), and the for loop bounded by N in search of part_001 performs
an augmentation, growing the matching, before falling through its end. -/
theorem C7_search_terminates {N : ℕ} (c0 : Cost N) (hnn : ∀ v u, 0 ≤ c0 v u) :
    ∀ k, k < N → ∃ s, phasesRun c0 k = some s ∧
      (∃ u s2, searchLoop N (seedPhase s) = some (u, s2) ∧
        s2.mate_U u = none) ∧
      (∃ s3, search1 N (seedPhase s) = some s3 ∧
        matchedCard s3 = matchedCard s + 1) := by
  intro k hk
  obtain ⟨s, h1, h2, -⟩ := phasesRun_spec c0 hnn k (le_of_lt hk)
  obtain ⟨u, s2, r, s3, hloop, hUnm, hr1, haug, hP, hpb, hpb1⟩ := phase_at_N h2 hk
  refine ⟨s, h1, ⟨u, s2, hloop, hUnm⟩, s3, hpb1, ?_⟩
  rw [hP.size, h2.size]

/-- C8: at every reachable loop state all unlabelled slacks are
non-negative, and the scan of the iteration either returns an exposed
column at once or collects at least one admissible column, the decremented
minimum slack over unlabelled columns being exactly zero; the equality
test slack == 0 therefore never skips past zero. -/
theorem C8_admissibility_hit {N : ℕ} (c0 : Cost N) (hnn : ∀ v u, 0 ≤ c0 v u) :
    ∀ k j s, k < N → loopState c0 k j = some s →
      (∀ u x, s.label_U u = false → s.slack u = some x → 0 ≤ x) ∧
      (∀ s2 adm fo, scanCols (update_alpha_beta s).1 (List.finRange N)
          (update_alpha_beta s).2 [] = (s2, adm, fo) →
        fo ≠ none ∨ (adm ≠ [] ∧ minSlack s2 = some 0)) := by
  intro k j s hk h
  have hS := loopState_SInv c0 hnn k j hk s h
  constructor
  · intro u x hu hx
    obtain ⟨w, -, hw2, hw3⟩ := hS.slackE u hu x hx
    have h4 := hS.feas w u
    simp only [sBound] at hw3
    omega
  · intro s2 adm fo hscan
    cases fo with
    | some u => exact Or.inl (by simp)
    | none =>
      right
      obtain ⟨θ, hms, hθnn, hθev, h2t, htnn, hatt, hc, hmv, hmu, hnh, hpar, hsl,
        hlv, hlu, ha, hb⟩ := updAB_char hS
      obtain ⟨us, hus1, hus2⟩ := hatt
      have hpres := scanCols_preserve (update_alpha_beta s).1 (List.finRange N)
        (update_alpha_beta s).2 []
      rw [hscan] at hpres
      obtain ⟨hp1, hp2, hp3, hp4, hp5, hp6, hp7, hp8, hp9⟩ := hpres
      obtain ⟨hn1, hn2, hn3, hn4⟩ := scanCols_none (update_alpha_beta s).1
        (List.finRange N) (update_alpha_beta s).2 [] (List.nodup_finRange N)
        s2 adm hscan
      have hs2us : s2.slack us = some 0 := by
        have h5 := hn1 us (List.mem_finRange us)
        rw [hlu, hus1, if_neg (by simp), hsl, hus2, h2t] at h5
        rw [h5]
        simp [decSlack]
      constructor
      · have hmem : us ∈ adm := by
          rw [hn3, List.nil_append]
          apply List.mem_filter.mpr
          refine ⟨List.mem_finRange us, ?_⟩
          simp only [admAt, Bool.and_eq_true, Bool.not_eq_true', decide_eq_true_eq]
          refine ⟨by rw [hlu]; exact hus1, ?_⟩
          rw [hsl, hus2, h2t]
          simp [decSlack]
        intro he
        rw [he] at hmem
        exact absurd hmem (List.not_mem_nil us)
      · have hus1b : s2.label_U us = false := by
          rw [hp9, hlu]
          exact hus1
        obtain ⟨m, hm, hle0⟩ := minSlack_le s2 us 0 hus1b hs2us
        obtain ⟨u2, hu2a, hu2b⟩ := minSlack_attained s2 m hm
        have hu2s : s.label_U u2 = false := by
          rw [← hlu, ← hp9]
          exact hu2a
        have h6 := hn1 u2 (List.mem_finRange u2)
        rw [hlu, hu2s, if_neg (by simp), hsl, h2t] at h6
        rw [h6] at hu2b
        cases hy : s.slack u2 with
        | none =>
          rw [hy] at hu2b
          exact absurd hu2b (by simp [decSlack])
        | some y =>
          rw [hy] at hu2b
          simp only [decSlack, Option.some.injEq] at hu2b
          have h7 := minSlack_le_of s θ u2 y hms hu2s hy
          have hm0 : m = 0 := by omega
          rw [hm0] at hm
          exact hm

/-- C9: at the end of every phase, the parent chain from nhbor of the
exposed column is acyclic and reaches a root within N steps: the recursive
augment with fuel N succeeds. -/
theorem C9_augment_terminates {N : ℕ} (c0 : Cost N) (hnn : ∀ v u, 0 ≤ c0 v u) :
    ∀ k, k < N → ∃ s u s2 r s3, phasesRun c0 k = some s ∧
      searchLoop (N + 1) (seedPhase s) = some (u, s2) ∧
      s2.nhbor u = some r ∧ augmentAux N r u s2 = some s3 := by
  intro k hk
  obtain ⟨s, h1, h2, -⟩ := phasesRun_spec c0 hnn k (le_of_lt hk)
  obtain ⟨u, s2, r, s3, hloop, -, hr1, haug, -, -, -⟩ := phase_at_N h2 hk
  exact ⟨s, u, s2, r, s3, h1,
    searchLoop_mono N (N + 1) (seedPhase s) (u, s2) (by omega) hloop, hr1, haug⟩

/-- C10: at every reachable loop state, any column whose slack reaches
zero under this iteration's decrement (the admissibility test of the
scan) has nhbor set to a labelled row, never the initial -1; hence the
promotion and the augment index mate_U and parent with a genuine row. -/
theorem C10_nhbor_of_admissible {N : ℕ} (c0 : Cost N)
    (hnn : ∀ v u, 0 ≤ c0 v u) :
    ∀ k j s, k < N → loopState c0 k j = some s →
      ∀ u, s.label_U u = false →
        decSlack (s.slack u) (2 * (update_alpha_beta s).1) = some 0 →
        ∃ r, s.nhbor u = some r ∧ s.label_V r = true := by
  intro k j s hk h u hu hdec
  have hS := loopState_SInv c0 hnn k j hk s h
  cases hy : s.slack u with
  | none =>
    rw [hy] at hdec
    exact absurd hdec (by simp [decSlack])
  | some y =>
    obtain ⟨r, hr1, hr2, -⟩ := hS.slackE u hu y hy
    exact ⟨r, hr1, hr2⟩

theorem C1_optimal_cost_witness :
    (∀ v u, 0 ≤ wMat v u) ∧ costOutput wMat = some (minAssignCost wMat) :=
  ⟨by decide, C1_optimal_cost wMat (by decide)⟩

theorem C2_matching_bijection_witness :
    (∀ v u, 0 ≤ wMat v u) ∧
    ∃ s, hungarianRun wMat = some s ∧
      (∀ v, ∃ u, s.mate_V v = some u) ∧
      (∀ v1 v2 u, s.mate_V v1 = some u → s.mate_V v2 = some u → v1 = v2) ∧
      (∀ u, ∃ v, s.mate_U u = some v) ∧
      (∀ u1 u2 v, s.mate_U u1 = some v → s.mate_U u2 = some v → u1 = u2) ∧
      (∀ v u, s.mate_V v = some u ↔ s.mate_U u = some v) :=
  ⟨by decide, C2_matching_bijection wMat (by decide)⟩

theorem C3_variants_agree_witness :
    (∀ v u, 0 ≤ wMat v u) ∧
    (costOutput1 wMat = costOutput wMat ∧ costOutput2 wMat = costOutput wMat ∧
      costOutput wMat = some (minAssignCost wMat)) :=
  ⟨by decide, C3_variants_agree wMat (by decide)⟩

theorem C4_dual_feasible_witness :
    (∀ v u, 0 ≤ wMat v u) ∧
    (((∀ v, (initState wMat).alpha v = 0) ∧
      (∀ u, (initState wMat).beta u = minCol (scaleC wMat) u)) ∧
    (∀ k, k ≤ 2 → ∃ s, phasesRun wMat k = some s ∧ s.c = scaleC wMat ∧
      (∀ v u, s.alpha v + s.beta u ≤ s.c v u) ∧
      (∀ v u, s.alpha v + s.beta u ≤ 2 * wMat v u)) ∧
    (∀ k j s, k < 2 → loopState wMat k j = some s →
      ∀ v u, s.alpha v + s.beta u ≤ 2 * wMat v u)) :=
  ⟨by decide, C4_dual_feasible wMat (by decide)⟩

theorem C5_matched_edges_tight_witness :
    (∀ v u, 0 ≤ wMat v u) ∧
    (∀ k, k ≤ 2 → ∃ s, phasesRun wMat k = some s ∧
      (∀ v u, s.mate_V v = some u → s.alpha v + s.beta u = s.c v u) ∧
      (∀ v u, s.mate_V v = some u → s.alpha v + s.beta u = 2 * wMat v u)) :=
  ⟨by decide, C5_matched_edges_tight wMat (by decide)⟩

theorem C6_theta_even_exact_witness :
    (∀ v u, 0 ≤ wMat v u) ∧
    (∀ k j s, k < 2 → loopState wMat k j = some s →
      (∀ v u, Even (s.alpha v + s.beta u)) ∧
      (∀ v u, Even (s.c v u)) ∧
      (∀ θ, minSlack s = some θ → 0 < θ →
        Even θ ∧ 2 * (update_alpha_beta s).1 = θ)) :=
  ⟨by decide, C6_theta_even_exact wMat (by decide)⟩

theorem C7_search_terminates_witness :
    (∀ v u, 0 ≤ wMat v u) ∧
    (∀ k, k < 2 → ∃ s, phasesRun wMat k = some s ∧
      (∃ u s2, searchLoop 2 (seedPhase s) = some (u, s2) ∧
        s2.mate_U u = none) ∧
      (∃ s3, search1 2 (seedPhase s) = some s3 ∧
        matchedCard s3 = matchedCard s + 1)) :=
  ⟨by decide, C7_search_terminates wMat (by decide)⟩

theorem C8_admissibility_hit_witness :
    (∀ v u, 0 ≤ wMat v u) ∧
    (∀ k j s, k < 2 → loopState wMat k j = some s →
      (∀ u x, s.label_U u = false → s.slack u = some x → 0 ≤ x) ∧
      (∀ s2 adm fo, scanCols (update_alpha_beta s).1 (List.finRange 2)
          (update_alpha_beta s).2 [] = (s2, adm, fo) →
        fo ≠ none ∨ (adm ≠ [] ∧ minSlack s2 = some 0))) :=
  ⟨by decide, C8_admissibility_hit wMat (by decide)⟩

theorem C9_augment_terminates_witness :
    (∀ v u, 0 ≤ wMat v u) ∧
    (∀ k, k < 2 → ∃ s u s2 r s3, phasesRun wMat k = some s ∧
      searchLoop 3 (seedPhase s) = some (u, s2) ∧
      s2.nhbor u = some r ∧ augmentAux 2 r u s2 = some s3) :=
  ⟨by decide, C9_augment_terminates wMat (by decide)⟩

theorem C10_nhbor_of_admissible_witness :
    (∀ v u, 0 ≤ wMat v u) ∧
    (∀ k j s, k < 2 → loopState wMat k j = some s →
      ∀ u, s.label_U u = false →
        decSlack (s.slack u) (2 * (update_alpha_beta s).1) = some 0 →
        ∃ r, s.nhbor u = some r ∧ s.label_V r = true) :=
  ⟨by decide, C10_nhbor_of_admissible wMat (by decide)⟩

end Hungarian
